import Mathlib

/-!
Verification of the KasagiEngine room/delta synchronization core.

The development embeds the delta engine (compute, apply, emptiness, remote
acceptance, base64/binary codec) and the room state operations (applyInput,
applyRemoteDelta, removeEntity, broadcast emission) as executable Lean
functions over a JSON-like value type, and proves the specified properties
about them.

JavaScript objects are modelled as association lists in insertion order with
unique keys; field access, assignment, deletion and spread are modelled by
the corresponding assoc-list operations.
-/

set_option maxHeartbeats 1600000
set_option maxRecDepth 4000

namespace Kasagi

/-- JSON-representable runtime values (the payload domain of entity fields). -/
inductive Val : Type where
  | vnull : Val
  | vbool : Bool → Val
  | vint : Int → Val
  | vstr : String → Val
  | vobj : List (String × Val) → Val

mutual

def Val.deq : (a b : Val) → Decidable (a = b)
  | .vnull, .vnull => isTrue rfl
  | .vbool a, .vbool b =>
    match decEq a b with
    | isTrue h => isTrue (by rw [h])
    | isFalse h => isFalse (fun hh => h (Val.vbool.inj hh))
  | .vint a, .vint b =>
    match decEq a b with
    | isTrue h => isTrue (by rw [h])
    | isFalse h => isFalse (fun hh => h (Val.vint.inj hh))
  | .vstr a, .vstr b =>
    match decEq a b with
    | isTrue h => isTrue (by rw [h])
    | isFalse h => isFalse (fun hh => h (Val.vstr.inj hh))
  | .vobj a, .vobj b =>
    match Val.deqFields a b with
    | isTrue h => isTrue (by rw [h])
    | isFalse h => isFalse (fun hh => h (Val.vobj.inj hh))
  | .vnull, .vbool _ => isFalse (by intro h; exact Val.noConfusion h)
  | .vnull, .vint _ => isFalse (by intro h; exact Val.noConfusion h)
  | .vnull, .vstr _ => isFalse (by intro h; exact Val.noConfusion h)
  | .vnull, .vobj _ => isFalse (by intro h; exact Val.noConfusion h)
  | .vbool _, .vnull => isFalse (by intro h; exact Val.noConfusion h)
  | .vbool _, .vint _ => isFalse (by intro h; exact Val.noConfusion h)
  | .vbool _, .vstr _ => isFalse (by intro h; exact Val.noConfusion h)
  | .vbool _, .vobj _ => isFalse (by intro h; exact Val.noConfusion h)
  | .vint _, .vnull => isFalse (by intro h; exact Val.noConfusion h)
  | .vint _, .vbool _ => isFalse (by intro h; exact Val.noConfusion h)
  | .vint _, .vstr _ => isFalse (by intro h; exact Val.noConfusion h)
  | .vint _, .vobj _ => isFalse (by intro h; exact Val.noConfusion h)
  | .vstr _, .vnull => isFalse (by intro h; exact Val.noConfusion h)
  | .vstr _, .vbool _ => isFalse (by intro h; exact Val.noConfusion h)
  | .vstr _, .vint _ => isFalse (by intro h; exact Val.noConfusion h)
  | .vstr _, .vobj _ => isFalse (by intro h; exact Val.noConfusion h)
  | .vobj _, .vnull => isFalse (by intro h; exact Val.noConfusion h)
  | .vobj _, .vbool _ => isFalse (by intro h; exact Val.noConfusion h)
  | .vobj _, .vint _ => isFalse (by intro h; exact Val.noConfusion h)
  | .vobj _, .vstr _ => isFalse (by intro h; exact Val.noConfusion h)

def Val.deqFields : (a b : List (String × Val)) → Decidable (a = b)
  | [], [] => isTrue rfl
  | [], _ :: _ => isFalse (by simp)
  | _ :: _, [] => isFalse (by simp)
  | (k, v) :: t, (k', v') :: t' =>
    match decEq k k' with
    | isTrue h1 =>
      match Val.deq v v' with
      | isTrue h2 =>
        match Val.deqFields t t' with
        | isTrue h3 => isTrue (by rw [h1, h2, h3])
        | isFalse h3 => isFalse (by
            intro hh
            injection hh with hp ht
            exact h3 ht)
      | isFalse h2 => isFalse (by
          intro hh
          injection hh with hp ht
          exact h2 (congrArg Prod.snd hp))
    | isFalse h1 => isFalse (by
        intro hh
        injection hh with hp ht
        exact h1 (congrArg Prod.fst hp))

end

instance : DecidableEq Val := Val.deq

/-- Property lookup on a JS object (first matching key). -/
def alook {α : Type} : List (String × α) → String → Option α
  | [], _ => none
  | (k, v) :: t, q => if k = q then some v else alook t q

/-- The JS `key in obj` / property-presence test. -/
def containsK {α : Type} (l : List (String × α)) (q : String) : Bool :=
  (alook l q).isSome

/-- Property assignment `obj[k] = v`: update in place if present, else append. -/
def setK {α : Type} : List (String × α) → String → α → List (String × α)
  | [], q, v => [(q, v)]
  | (k, w) :: t, q, v => if k = q then (k, v) :: t else (k, w) :: setK t q v

/-- Property deletion `delete obj[k]`. -/
def eraseK {α : Type} : List (String × α) → String → List (String × α)
  | [], _ => []
  | (k, w) :: t, q => if k = q then eraseK t q else (k, w) :: eraseK t q

/-- Object spread `{...a, ...b}`: assign every property of `b` over `a`. -/
def overlayK {α : Type} (a b : List (String × α)) : List (String × α) :=
  b.foldl (fun m p => setK m p.1 p.2) a

/-- Key list of an object, in insertion order (JS `Object.keys`). -/
def keysOf {α : Type} (l : List (String × α)) : List String :=
  l.map Prod.fst

/-- An entity: a field map (JS object of opaque values). -/
abbrev Fields := List (String × Val)

/-- The entity table of a room: entity id to entity. -/
abbrev Entities := List (String × Fields)

/-- An entity delta: entity id to either a change field-map or null (remove).
The value `none` embeds the JSON `null` removal marker. -/
abbrev EntityDelta := List (String × Option Fields)

/-- Field-level diff for an entity present in both states (the inner loops of
`computeEntityDelta`): fields of `next` whose value differs from `prev`
followed by fields removed from `prev`, emitted as `null`. -/
def computeFieldDelta (prevE nextE : Fields) : Fields :=
  (nextE.filter fun fv => decide (¬alook prevE fv.1 = some fv.2)) ++
    ((prevE.filter fun fv => !containsK nextE fv.1).map fun fv => (fv.1, Val.vnull))

/-- The delta entry `computeEntityDelta` produces for one id of `next`:
a new entity appears whole; a changed entity contributes its field diff
unless empty; an unchanged entity (equal serialization) is omitted. -/
def entityDeltaEntry (prev : Entities) (id : String) (nE : Fields) :
    Option (String × Option Fields) :=
  match alook prev id with
  | none => some (id, some nE)
  | some pE =>
    if pE = nE then none
    else
      let fd := computeFieldDelta pE nE
      if fd = [] then none else some (id, some fd)

/-- Shallow diff between previous and next entity tables
(`computeEntityDelta` of the delta engine): changed/new entities from `next`,
then entities removed from `prev` marked `null`. -/
def computeEntityDelta (prev next : Entities) : EntityDelta :=
  (next.filterMap fun e => entityDeltaEntry prev e.1 e.2) ++
    ((prev.filter fun e => !containsK next e.1).map fun e =>
      (e.1, (none : Option Fields)))

/-- The field-update loop of `applyDeltaToEntities` on an existing entity:
a `null` value deletes the field, any other value is assigned. -/
def updateEntityFields (cur : Fields) : Fields → Fields
  | [] => cur
  | (f, v) :: t =>
    updateEntityFields (if v = Val.vnull then eraseK cur f else setK cur f v) t

/-- One entry of the delta-application loop: `null` removes the entity, an
absent entity is inserted whole, an existing entity is updated field-wise. -/
def applyOneDelta (es : Entities) (id : String) (ch : Option Fields) : Entities :=
  match ch with
  | none => eraseK es id
  | some c =>
    match alook es id with
    | none => setK es id c
    | some cur => setK es id (updateEntityFields cur c)

/-- Apply an entity delta to an entity table (`applyDeltaToEntities`). -/
def applyDeltaToEntities (es : Entities) : EntityDelta → Entities
  | [] => es
  | (id, ch) :: t => applyDeltaToEntities (applyOneDelta es id ch) t

/-- Emptiness test on a delta (`isDeltaEmpty`): no keys. -/
def isDeltaEmpty (d : EntityDelta) : Bool :=
  d.isEmpty

/-- Wire form of a delta with transport metadata (`FullDelta`). -/
structure FullDelta where
  roomId : String
  delta : EntityDelta
  tick : Int
  seq : Int
  ts : Int
  instanceId : String
deriving DecidableEq

/-- Acceptance predicate for a remote delta (`shouldApplyRemoteDelta`):
reject own echoes, reject stale sequence numbers, else accept. -/
def shouldApplyRemoteDelta (selfInstanceId : String) (remoteDelta : FullDelta)
    (localSeq : Int) : Bool :=
  if remoteDelta.instanceId = selfInstanceId then false
  else if remoteDelta.seq ≤ localSeq then false
  else true

/-- The mutable data of a room (`RoomStateData`). -/
structure RoomStateData where
  entities : Entities
  tick : Int
  seq : Int
deriving DecidableEq

/-- Apply player input to the room state (`RoomState.applyInput`): merge the
payload over the existing entity (or a fresh one), stamp `lastUpdate` with the
current time, bump `tick` and `seq`, and return the computed delta. -/
def applyInput (s : RoomStateData) (playerId : String) (payload : Fields)
    (now : Int) : RoomStateData × EntityDelta :=
  let prevEntities := s.entities
  let merged :=
    setK (overlayK ((alook prevEntities playerId).getD []) payload)
      "lastUpdate" (Val.vint now)
  let newEntities := setK prevEntities playerId merged
  let delta := computeEntityDelta prevEntities newEntities
  ({ entities := newEntities, tick := s.tick + 1, seq := s.seq + 1 }, delta)

/-- Apply a remote delta (`RoomState.applyRemoteDelta`): if accepted, merge
the delta, adopt the remote `seq`, fast-forward `tick` to the max, and report
`true`; otherwise leave the state alone and report `false`. -/
def applyRemoteDelta (selfInstanceId : String) (s : RoomStateData)
    (remoteDelta : FullDelta) : RoomStateData × Bool :=
  if shouldApplyRemoteDelta selfInstanceId remoteDelta s.seq then
    ({ entities := applyDeltaToEntities s.entities remoteDelta.delta,
       tick := max s.tick remoteDelta.tick,
       seq := remoteDelta.seq }, true)
  else (s, false)

/-- Remove an entity (`RoomState.removeEntity`): if present, delete it, bump
`seq` and `tick`, and return the computed delta; else return the empty delta
without touching the state. -/
def removeEntity (s : RoomStateData) (playerId : String) :
    RoomStateData × EntityDelta :=
  if containsK s.entities playerId then
    let newEntities := eraseK s.entities playerId
    ({ entities := newEntities, tick := s.tick + 1, seq := s.seq + 1 },
     computeEntityDelta s.entities newEntities)
  else (s, [])

/-- Operations a room serializes: a player input, a departing client whose
entity is removed (`removeClient`), or an incoming remote delta. -/
inductive RoomOp : Type where
  | input : String → Fields → Int → RoomOp
  | depart : String → RoomOp
  | remote : FullDelta → RoomOp

/-- One room operation together with the `seq` values it emits. A non-empty
delta from a local mutation is broadcast and published carrying the room's
current `seq`; an accepted remote delta is re-broadcast locally (skipped by
`broadcastDelta` when empty) carrying the adopted `seq`; an empty local delta
suppresses emission. -/
def stepRoom (selfInstanceId : String) (s : RoomStateData) :
    RoomOp → RoomStateData × List Int
  | RoomOp.input pid payload now =>
    let r := applyInput s pid payload now
    (r.1, if isDeltaEmpty r.2 then [] else [r.1.seq])
  | RoomOp.depart pid =>
    let r := removeEntity s pid
    (r.1, if isDeltaEmpty r.2 then [] else [r.1.seq])
  | RoomOp.remote fd =>
    let r := applyRemoteDelta selfInstanceId s fd
    (r.1, if r.2 && !isDeltaEmpty fd.delta then [r.1.seq] else [])

/-- Run a sequence of room operations, collecting all emitted `seq` values in
emission order. -/
def runRoom (selfInstanceId : String) (s : RoomStateData) :
    List RoomOp → RoomStateData × List Int
  | [] => (s, [])
  | op :: t =>
    let r := stepRoom selfInstanceId s op
    let rest := runRoom selfInstanceId r.1 t
    (rest.1, r.2 ++ rest.2)

/-- Gap-freedom of a seq stream: each emitted value is the successor of the
previous one. -/
def noGapsB : List Int → Bool
  | a :: b :: t => decide (b = a + 1) && noGapsB (b :: t)
  | _ => true

/-- Extensional equality of two entities: identical field lookup everywhere
(the by-value equality of the spec, insensitive to key order). -/
def fieldsEqv (a b : Fields) : Prop :=
  ∀ f, alook a f = alook b f

/-- Extensional equality of optional entities. -/
def optFieldsEqv : Option Fields → Option Fields → Prop
  | none, none => True
  | some a, some b => fieldsEqv a b
  | _, _ => False

/-- Extensional equality of entity tables: every id resolves to extensionally
equal entities (or is absent from both). -/
def entitiesEqv (x y : Entities) : Prop :=
  ∀ id, optFieldsEqv (alook x id) (alook y id)

/-- Well-formedness of an entity table as a JS object of objects: the table
and each entity have unique keys. -/
def EntitiesWF (x : Entities) : Prop :=
  (keysOf x).Nodup ∧ ∀ p ∈ x, (keysOf p.2).Nodup

/-- No field of any entity carries the JSON null value. -/
def NoNullFieldValues (x : Entities) : Prop :=
  ∀ p ∈ x, ∀ q ∈ p.2, ¬q.2 = Val.vnull

instance decEntitiesWF (x : Entities) : Decidable (EntitiesWF x) :=
  inferInstanceAs (Decidable ((keysOf x).Nodup ∧ ∀ p ∈ x, (keysOf p.2).Nodup))

instance decNoNullFieldValues (x : Entities) :
    Decidable (NoNullFieldValues x) :=
  inferInstanceAs (Decidable (∀ p ∈ x, ∀ q ∈ p.2, ¬q.2 = Val.vnull))

/-- Field-level effect of one delta change value over a current value: null
deletes, any other value replaces, absence keeps the current value. -/
def applyFieldChange : Option Val → Option Val → Option Val
  | some Val.vnull, _ => none
  | some v, _ => some v
  | none, cur => cur

/-- Big-endian bytes of a natural number on `w` bytes. -/
def natToBytesBE : Nat → Nat → List Nat
  | 0, _ => []
  | w + 1, n => natToBytesBE w (n / 256) ++ [n % 256]

/-- Take `w` bytes off the front of a stream. -/
def readBytes : Nat → List Nat → Option (List Nat × List Nat)
  | 0, l => some ([], l)
  | _ + 1, [] => none
  | w + 1, b :: t => (readBytes w t).map fun p => (b :: p.1, p.2)

/-- Big-endian value of a byte list. -/
def beVal (bs : List Nat) : Nat :=
  bs.foldl (fun a b => a * 256 + b) 0

/-- The float64 (0xcb) encoding of an integer-valued JS number: the eight
big-endian bytes of its IEEE 754 double bit pattern, assembled as
sign * 2^63 + (exponent + 1023) * 2^52 + fraction. For a nonzero integer n
with |n| < 2^53 the exponent is log2 |n| and the fraction is the bits of
|n| below the leading one, shifted up to 52 bits. -/
def encFloat64 (n : Int) : List Nat :=
  203 :: natToBytesBE 8 ((if n < 0 then 1 else 0) * 2 ^ 63 +
    (Nat.log2 n.natAbs + 1023) * 2 ^ 52 +
    (n.natAbs - 2 ^ Nat.log2 n.natAbs) * 2 ^ (52 - Nat.log2 n.natAbs))

/-- Binary encoding of a JS number that is an integer. Following the
encoder's dispatch (`value | 0` truncates to int32; only a number equal to
its truncation gets an integer format), integers inside the int32 range use
positive/negative fixint, uint8/16/32 or int8/16/32, and every other
number — in particular every `Date.now()` timestamp — is written as a
float64 (0xcb). -/
def encInt (n : Int) : List Nat :=
  if -2147483648 ≤ n ∧ n < 2147483648 then
    if 0 ≤ n then
      if n.toNat < 128 then [n.toNat]
      else if n.toNat < 256 then [0xcc, n.toNat]
      else if n.toNat < 65536 then 0xcd :: natToBytesBE 2 n.toNat
      else 0xce :: natToBytesBE 4 n.toNat
    else
      if -32 ≤ n then [(256 + n).toNat]
      else if -128 ≤ n then [0xd0, (256 + n).toNat]
      else if -32768 ≤ n then 0xd1 :: natToBytesBE 2 (65536 + n).toNat
      else 0xd2 :: natToBytesBE 4 (4294967296 + n).toNat
  else encFloat64 n

/-- The UTF-8 bytes of one character: one to four bytes depending on the
code point. -/
def utf8EncChar (c : Char) : List Nat :=
  if c.toNat < 128 then [c.toNat]
  else if c.toNat < 2048 then [192 + c.toNat / 64, 128 + c.toNat % 64]
  else if c.toNat < 65536 then
    [224 + c.toNat / 4096, 128 + c.toNat / 64 % 64, 128 + c.toNat % 64]
  else
    [240 + c.toNat / 262144, 128 + c.toNat / 4096 % 64,
      128 + c.toNat / 64 % 64, 128 + c.toNat % 64]

/-- The UTF-8 bytes of a character list. -/
def strBytesAux : List Char → List Nat
  | [] => []
  | c :: cs => utf8EncChar c ++ strBytesAux cs

/-- The UTF-8 bytes of a string. -/
def strBytes (s : String) : List Nat :=
  strBytesAux s.data

/-- Binary encoding of a string: fixstr, str8, str16 or str32 header (by
UTF-8 byte length) plus the bytes. -/
def encStr (s : String) : List Nat :=
  if (strBytes s).length < 32 then (160 + (strBytes s).length) :: strBytes s
  else if (strBytes s).length < 256 then 0xd9 :: (strBytes s).length :: strBytes s
  else if (strBytes s).length < 65536 then
    0xda :: natToBytesBE 2 (strBytes s).length ++ strBytes s
  else 0xdb :: natToBytesBE 4 (strBytes s).length ++ strBytes s

/-- Map header: fixmap for up to 15 entries, map16 below 65536, else map32. -/
def encMapHeader (n : Nat) : List Nat :=
  if n < 16 then [128 + n]
  else if n < 65536 then 0xde :: natToBytesBE 2 n
  else 0xdf :: natToBytesBE 4 n

mutual

/-- Binary encoding of a value (the MessagePack layout the delta engine's
`encodeDelta` produces for JSON-like payloads). -/
def encVal : Val → List Nat
  | .vnull => [0xc0]
  | .vbool false => [0xc2]
  | .vbool true => [0xc3]
  | .vint n => encInt n
  | .vstr s => encStr s
  | .vobj fs => encMapHeader fs.length ++ encFields fs

/-- Binary encoding of the entries of a map: key string then value, in order. -/
def encFields : List (String × Val) → List Nat
  | [] => []
  | (k, v) :: t => encStr k ++ encVal v ++ encFields t

end

/-- Well-formedness of a string for the codec model: its UTF-8 byte length
fits the str32 header (the largest the format offers). -/
def strWF (s : String) : Bool :=
  decide ((strBytes s).length < 4294967296)

mutual

/-- Well-formedness of a value for the codec model: integers a JS number
holds exactly (|n| < 2^53, which covers every Date.now() timestamp),
strings whose UTF-8 byte length fits str32, maps whose entry count fits
map32. -/
def valWF : Val → Bool
  | .vnull => true
  | .vbool _ => true
  | .vint n => decide (-9007199254740992 < n) && decide (n < 9007199254740992)
  | .vstr s => strWF s
  | .vobj fs => decide (fs.length < 4294967296) && fieldsWF fs

/-- Well-formedness of map entries: every key and value is well formed. -/
def fieldsWF : List (String × Val) → Bool
  | [] => true
  | (k, v) :: t => strWF k && valWF v && fieldsWF t

end

mutual

/-- Nesting depth of a value (maps count one level). -/
def depthV : Val → Nat
  | .vobj fs => depthF fs + 1
  | _ => 0

/-- Nesting depth of map entries. -/
def depthF : List (String × Val) → Nat
  | [] => 0
  | (_, v) :: t => max (depthV v) (depthF t)

end

/-- Read one UTF-8 continuation byte: its six payload bits and the rest of
the stream. -/
def utf8Cont : List Nat → Option (Nat × List Nat)
  | c :: t => if 128 ≤ c ∧ c < 192 then some (c - 128, t) else none
  | [] => none

/-- Decode UTF-8 characters off a byte stream until the byte budget `n` is
spent. A char takes one to four bytes depending on its leading byte;
continuation bytes carry six payload bits each. -/
def utf8Dec : Nat → List Nat → Option (List Char × List Nat)
  | 0, bytes => some ([], bytes)
  | _ + 1, [] => none
  | n + 1, b :: t =>
    if b < 128 then
      (utf8Dec n t).map fun p => (Char.ofNat b :: p.1, p.2)
    else if b < 192 then none
    else if b < 224 then
      if 1 ≤ n then
        (utf8Cont t).bind fun q =>
          (utf8Dec (n - 1) q.2).map fun p =>
            (Char.ofNat ((b - 192) * 64 + q.1) :: p.1, p.2)
      else none
    else if b < 240 then
      if 2 ≤ n then
        (utf8Cont t).bind fun q1 =>
          (utf8Cont q1.2).bind fun q2 =>
            (utf8Dec (n - 2) q2.2).map fun p =>
              (Char.ofNat ((b - 224) * 4096 + q1.1 * 64 + q2.1) :: p.1, p.2)
      else none
    else if b < 248 then
      if 3 ≤ n then
        (utf8Cont t).bind fun q1 =>
          (utf8Cont q1.2).bind fun q2 =>
            (utf8Cont q2.2).bind fun q3 =>
              (utf8Dec (n - 3) q3.2).map fun p =>
                (Char.ofNat ((b - 240) * 262144 + q1.1 * 4096 +
                  q2.1 * 64 + q3.1) :: p.1, p.2)
      else none
    else none
termination_by n _ => n
decreasing_by all_goals omega

/-- Decode `n` payload bytes as a string. -/
def decodeStrBytes (n : Nat) (bytes : List Nat) : Option (String × List Nat) :=
  (utf8Dec n bytes).map fun p => (String.mk p.1, p.2)

/-- Decode one string value (fixstr, str8, str16 or str32 header). -/
def decodeStr : List Nat → Option (String × List Nat)
  | [] => none
  | b :: t =>
    if 160 ≤ b ∧ b < 192 then decodeStrBytes (b - 160) t
    else if b = 0xd9 then
      match t with
      | m :: t2 => decodeStrBytes m t2
      | [] => none
    else if b = 0xda then
      (readBytes 2 t).bind fun p => decodeStrBytes (beVal p.1) p.2
    else if b = 0xdb then
      (readBytes 4 t).bind fun p => decodeStrBytes (beVal p.1) p.2
    else none

/-- Read an integer back from the 64-bit IEEE 754 word of a float64: split
off sign, biased exponent and fraction, and rebuild the value when it is an
integer (biased exponent at least 1023, any fraction bits below the units
place zero). A NaN or infinity (biased exponent 2047), a nonzero
subnormal, or a double with a fractional part gives none. -/
def decodeFloat64 (w : Nat) : Option Int :=
  if w / 2 ^ 52 % 2 ^ 11 = 0 then
    if w % 2 ^ 52 = 0 then some 0 else none
  else if w / 2 ^ 52 % 2 ^ 11 = 2047 then none
  else if w / 2 ^ 52 % 2 ^ 11 < 1023 then none
  else if w / 2 ^ 52 % 2 ^ 11 ≤ 1075 then
    if w % 2 ^ 52 % 2 ^ (1075 - w / 2 ^ 52 % 2 ^ 11) = 0 then
      some (if w / 2 ^ 63 = 1 then
          -(((2 ^ 52 + w % 2 ^ 52) / 2 ^ (1075 - w / 2 ^ 52 % 2 ^ 11) : Nat) : Int)
        else (((2 ^ 52 + w % 2 ^ 52) / 2 ^ (1075 - w / 2 ^ 52 % 2 ^ 11) : Nat) : Int))
    else none
  else
    some (if w / 2 ^ 63 = 1 then
        -(((2 ^ 52 + w % 2 ^ 52) * 2 ^ (w / 2 ^ 52 % 2 ^ 11 - 1075) : Nat) : Int)
      else (((2 ^ 52 + w % 2 ^ 52) * 2 ^ (w / 2 ^ 52 % 2 ^ 11 - 1075) : Nat) : Int))

mutual

/-- Decode one value off the front of a byte stream, with a fuel bound on
nesting (the MessagePack formats the encoder emits). -/
def decodeVal : Nat → List Nat → Option (Val × List Nat)
  | 0, _ => none
  | _ + 1, [] => none
  | f + 1, b :: t =>
    if b < 128 then some (.vint (b : Int), t)
    else if b < 144 then
      (decodeFields f (b - 128) t).map fun p => (Val.vobj p.1, p.2)
    else if b < 160 then none
    else if b < 192 then
      (decodeStrBytes (b - 160) t).map fun p => (Val.vstr p.1, p.2)
    else if b = 0xc0 then some (.vnull, t)
    else if b = 0xc2 then some (.vbool false, t)
    else if b = 0xc3 then some (.vbool true, t)
    else if b = 0xcb then
      (readBytes 8 t).bind fun p =>
        (decodeFloat64 (beVal p.1)).map fun v => (Val.vint v, p.2)
    else if b = 0xcc then
      match t with
      | m :: t2 => some (.vint (m : Int), t2)
      | [] => none
    else if b = 0xcd then
      (readBytes 2 t).map fun p => (Val.vint (beVal p.1 : Int), p.2)
    else if b = 0xce then
      (readBytes 4 t).map fun p => (Val.vint (beVal p.1 : Int), p.2)
    else if b = 0xd0 then
      match t with
      | m :: t2 => some (.vint (if m < 128 then (m : Int) else (m : Int) - 256), t2)
      | [] => none
    else if b = 0xd1 then
      (readBytes 2 t).map fun p =>
        (Val.vint (if beVal p.1 < 32768 then (beVal p.1 : Int)
          else (beVal p.1 : Int) - 65536), p.2)
    else if b = 0xd2 then
      (readBytes 4 t).map fun p =>
        (Val.vint (if beVal p.1 < 2147483648 then (beVal p.1 : Int)
          else (beVal p.1 : Int) - 4294967296), p.2)
    else if b = 0xd9 then
      match t with
      | m :: t2 => (decodeStrBytes m t2).map fun p => (Val.vstr p.1, p.2)
      | [] => none
    else if b = 0xda then
      (readBytes 2 t).bind fun p =>
        (decodeStrBytes (beVal p.1) p.2).map fun q => (Val.vstr q.1, q.2)
    else if b = 0xdb then
      (readBytes 4 t).bind fun p =>
        (decodeStrBytes (beVal p.1) p.2).map fun q => (Val.vstr q.1, q.2)
    else if b = 0xde then
      (readBytes 2 t).bind fun p =>
        (decodeFields f (beVal p.1) p.2).map fun q => (Val.vobj q.1, q.2)
    else if b = 0xdf then
      (readBytes 4 t).bind fun p =>
        (decodeFields f (beVal p.1) p.2).map fun q => (Val.vobj q.1, q.2)
    else if 224 ≤ b then some (.vint ((b : Int) - 256), t)
    else none
termination_by f bytes => (f, 0)

/-- Decode `n` key/value map entries. -/
def decodeFields : Nat → Nat → List Nat → Option (List (String × Val) × List Nat)
  | _, 0, bytes => some ([], bytes)
  | f, n + 1, bytes =>
    (decodeStr bytes).bind fun kp =>
      (decodeVal f kp.2).bind fun vp =>
        (decodeFields f n vp.2).map fun rp => ((kp.1, vp.1) :: rp.1, rp.2)
termination_by f n bytes => (f, n + 1)

end

/-- Base64 alphabet character of a sextet. -/
def b64chr (n : Nat) : Char :=
  if n < 26 then Char.ofNat (65 + n)
  else if n < 52 then Char.ofNat (97 + (n - 26))
  else if n < 62 then Char.ofNat (48 + (n - 52))
  else if n = 62 then '+'
  else '/'

/-- Sextet of a base64 alphabet character. -/
def b64idx (c : Char) : Option Nat :=
  if 65 ≤ c.toNat ∧ c.toNat ≤ 90 then some (c.toNat - 65)
  else if 97 ≤ c.toNat ∧ c.toNat ≤ 122 then some (c.toNat - 97 + 26)
  else if 48 ≤ c.toNat ∧ c.toNat ≤ 57 then some (c.toNat - 48 + 52)
  else if c = '+' then some 62
  else if c = '/' then some 63
  else none

/-- Base64 encoding of a byte list with padding. -/
def b64encode : List Nat → List Char
  | b0 :: b1 :: b2 :: t =>
    b64chr (b0 / 4) :: b64chr (b0 % 4 * 16 + b1 / 16) ::
      b64chr (b1 % 16 * 4 + b2 / 64) :: b64chr (b2 % 64) :: b64encode t
  | [b0, b1] =>
    [b64chr (b0 / 4), b64chr (b0 % 4 * 16 + b1 / 16), b64chr (b1 % 16 * 4), '=']
  | [b0] => [b64chr (b0 / 4), b64chr (b0 % 4 * 16), '=', '=']
  | [] => []

/-- Base64 decoding of a character list, honoring padding. -/
def b64decode : List Char → Option (List Nat)
  | [] => some []
  | c0 :: c1 :: c2 :: c3 :: t =>
    (b64idx c0).bind fun n0 =>
      (b64idx c1).bind fun n1 =>
        if c2 = '=' then
          if c3 = '=' ∧ t = [] then some [n0 * 4 + n1 / 16] else none
        else
          (b64idx c2).bind fun n2 =>
            if c3 = '=' then
              if t = [] then some [n0 * 4 + n1 / 16, n1 % 16 * 16 + n2 / 4]
              else none
            else
              (b64idx c3).bind fun n3 =>
                (b64decode t).map fun bs =>
                  (n0 * 4 + n1 / 16) :: (n1 % 16 * 16 + n2 / 4) ::
                    (n2 % 4 * 64 + n3) :: bs
  | _ => none

/-- The JSON value a delta entry serializes as: null or the field map. -/
def deltaEntryToVal : Option Fields → Val
  | none => Val.vnull
  | some fs => Val.vobj fs

/-- The JSON value an entity delta serializes as. -/
def entityDeltaToVal (d : EntityDelta) : Val :=
  Val.vobj (d.map fun p => (p.1, deltaEntryToVal p.2))

/-- The JSON value a FullDelta serializes as (field order of
`createDeltaPayload`). -/
def fullDeltaToVal (fd : FullDelta) : Val :=
  Val.vobj [("roomId", Val.vstr fd.roomId),
    ("delta", entityDeltaToVal fd.delta),
    ("tick", Val.vint fd.tick),
    ("seq", Val.vint fd.seq),
    ("ts", Val.vint fd.ts),
    ("instanceId", Val.vstr fd.instanceId)]

/-- Read an entity delta back from decoded map entries: null means entity
removal, a map is a field change set. -/
def valToDeltaEntries : List (String × Val) → Option EntityDelta
  | [] => some []
  | (k, Val.vnull) :: t => (valToDeltaEntries t).map fun r => (k, none) :: r
  | (k, Val.vobj fs) :: t => (valToDeltaEntries t).map fun r => (k, some fs) :: r
  | _ => none

/-- Read a FullDelta back from a decoded value (the shape the TS cast
`as FullDelta` assumes). -/
def valToFullDelta : Val → Option FullDelta
  | Val.vobj fs =>
    match alook fs "roomId", alook fs "delta", alook fs "tick", alook fs "seq",
        alook fs "ts", alook fs "instanceId" with
    | some (Val.vstr r), some (Val.vobj d), some (Val.vint tk),
        some (Val.vint sq), some (Val.vint ts), some (Val.vstr iid) =>
      (valToDeltaEntries d).map fun ed =>
        { roomId := r, delta := ed, tick := tk, seq := sq, ts := ts,
          instanceId := iid }
    | _, _, _, _, _, _ => none
  | _ => none

/-- Encode a FullDelta to a base64 string for the coordinator publish
(`encodeDeltaToBase64`: MessagePack encode, then base64). -/
def encodeDeltaToBase64 (fd : FullDelta) : String :=
  String.mk (b64encode (encVal (fullDeltaToVal fd)))

/-- Decode a base64 coordinator message back to a FullDelta
(`decodeDeltaFromBase64`: base64 decode, then MessagePack decode). -/
def decodeDeltaFromBase64 (s : String) : Option FullDelta :=
  (b64decode s.data).bind fun bytes =>
    (decodeVal (bytes.length + 1) bytes).bind fun p => valToFullDelta p.1

section AListLemmas

variable {α : Type}

theorem alook_setK (l : List (String × α)) (q r : String) (v : α) :
    alook (setK l q v) r = if r = q then some v else alook l r := by
  induction l with
  | nil =>
    by_cases h : r = q
    · subst h
      simp [setK, alook]
    · simp [setK, alook, h, Ne.symm h]
  | cons p t ih =>
    obtain ⟨k, w⟩ := p
    by_cases hk : k = q
    · subst hk
      by_cases hr : r = k
      · subst hr
        simp [setK, alook]
      · simp [setK, alook, hr, Ne.symm hr]
    · by_cases hr : r = k
      · subst hr
        simp [setK, alook, hk, Ne.symm hk]
      · simp [setK, alook, hk, Ne.symm hr, ih]

theorem alook_eraseK (l : List (String × α)) (q r : String) :
    alook (eraseK l q) r = if r = q then none else alook l r := by
  induction l with
  | nil => simp [eraseK, alook]
  | cons p t ih =>
    obtain ⟨k, w⟩ := p
    by_cases hk : k = q
    · subst hk
      by_cases hr : r = k
      · subst hr
        simp [eraseK, alook, ih]
      · simp [eraseK, alook, hr, Ne.symm hr, ih]
    · by_cases hr : r = k
      · subst hr
        simp [eraseK, alook, hk, Ne.symm hk]
      · simp [eraseK, alook, hk, Ne.symm hr, ih]

theorem alook_none_of_not_mem_keys (l : List (String × α)) (q : String)
    (h : q ∉ keysOf l) : alook l q = none := by
  induction l with
  | nil => rfl
  | cons p t ih =>
    obtain ⟨k, w⟩ := p
    simp only [keysOf, List.map_cons, List.mem_cons, not_or] at h
    have h1 : ¬k = q := fun hh => h.1 hh.symm
    simp only [alook, h1, if_false]
    exact ih (by simpa [keysOf] using h.2)

theorem mem_keys_of_alook_eq_some (l : List (String × α)) (q : String) (v : α)
    (h : alook l q = some v) : q ∈ keysOf l := by
  induction l with
  | nil => simp [alook] at h
  | cons p t ih =>
    obtain ⟨k, w⟩ := p
    simp only [keysOf, List.map_cons, List.mem_cons]
    by_cases hk : k = q
    · exact Or.inl hk.symm
    · simp only [alook, hk, if_false] at h
      exact Or.inr (by simpa [keysOf] using ih h)

theorem mem_of_alook_eq_some (l : List (String × α)) (q : String) (v : α)
    (h : alook l q = some v) : (q, v) ∈ l := by
  induction l with
  | nil => simp [alook] at h
  | cons p t ih =>
    obtain ⟨k, w⟩ := p
    by_cases hk : k = q
    · subst hk
      have h2 : w = v := by simpa [alook] using h
      subst h2
      exact List.mem_cons_self _ _
    · simp only [alook, hk, if_false] at h
      exact List.mem_cons_of_mem _ (ih h)

theorem alook_eq_some_of_mem_nodup (l : List (String × α)) (q : String) (v : α)
    (hn : (keysOf l).Nodup) (h : (q, v) ∈ l) : alook l q = some v := by
  induction l with
  | nil => simp at h
  | cons p t ih =>
    obtain ⟨k, w⟩ := p
    simp only [keysOf, List.map_cons, List.nodup_cons] at hn
    rcases List.mem_cons.mp h with h1 | h1
    · cases h1
      simp [alook]
    · have hq : q ∈ keysOf t := by
        simpa [keysOf] using List.mem_map_of_mem Prod.fst h1
      have hk : ¬k = q := fun hkq => hn.1 (hkq ▸ (by simpa [keysOf] using hq))
      simp only [alook, hk, if_false]
      exact ih (by simpa [keysOf] using hn.2) h1

theorem isSome_alook_of_mem (l : List (String × α)) (q : String) (v : α)
    (h : (q, v) ∈ l) : (alook l q).isSome = true := by
  induction l with
  | nil => simp at h
  | cons p t ih =>
    obtain ⟨k, w⟩ := p
    rcases List.mem_cons.mp h with h1 | h1
    · cases h1
      simp [alook]
    · by_cases hk : k = q
      · simp [alook, hk]
      · simp [alook, hk, ih h1]

theorem mem_keys_iff_containsK (l : List (String × α)) (q : String) :
    q ∈ keysOf l ↔ containsK l q = true := by
  constructor
  · intro h
    have h2 : ∃ x, (q, x) ∈ l := by simpa [keysOf, List.mem_map] using h
    rcases h2 with ⟨b, hmem⟩
    exact isSome_alook_of_mem _ _ _ hmem
  · intro h
    rcases hs : alook l q with _ | v
    · simp [containsK, hs] at h
    · exact mem_keys_of_alook_eq_some l q v hs

theorem alook_append (a b : List (String × α)) (q : String) :
    alook (a ++ b) q = match alook a q with
      | some v => some v
      | none => alook b q := by
  induction a with
  | nil => simp [alook]
  | cons p t ih =>
    obtain ⟨k, w⟩ := p
    by_cases hk : k = q
    · simp [alook, hk]
    · simp [alook, hk, ih]

theorem alook_overlayK (a b : List (String × α)) (q : String)
    (hn : (keysOf b).Nodup) :
    alook (overlayK a b) q = match alook b q with
      | some v => some v
      | none => alook a q := by
  induction b generalizing a with
  | nil => simp [overlayK, alook]
  | cons p t ih =>
    obtain ⟨k, v⟩ := p
    simp only [keysOf, List.map_cons, List.nodup_cons] at hn
    have step : overlayK a ((k, v) :: t) = overlayK (setK a k v) t := rfl
    rw [step, ih (setK a k v) (by simpa [keysOf] using hn.2)]
    by_cases hk : k = q
    · subst hk
      have ht : alook t k = none :=
        alook_none_of_not_mem_keys t k (by simpa [keysOf] using hn.1)
      simp [alook, ht, alook_setK]
    · have hc : alook ((k, v) :: t) q = alook t q := by simp [alook, hk]
      rw [hc]
      rcases halt : alook t q with _ | w
      · simp [alook_setK, Ne.symm hk]
      · simp

end AListLemmas


theorem mem_eraseK {α : Type} (l : List (String × α)) (q : String)
    (p : String × α) (h : p ∈ eraseK l q) : p ∈ l ∧ ¬p.1 = q := by
  induction l with
  | nil => simp [eraseK] at h
  | cons hd t ih =>
    obtain ⟨k, w⟩ := hd
    by_cases hk : k = q
    · simp only [eraseK, hk, if_true] at h
      have := ih (by simpa [hk] using h)
      exact ⟨List.mem_cons_of_mem _ this.1, this.2⟩
    · simp only [eraseK, hk, if_false] at h
      rcases List.mem_cons.mp h with h1 | h1
      · subst h1
        exact ⟨List.mem_cons_self _ _, hk⟩
      · have := ih h1
        exact ⟨List.mem_cons_of_mem _ this.1, this.2⟩

theorem filter_key_eq {α : Type} (l : List (String × α)) (q : String) (v : α)
    (hn : (keysOf l).Nodup) (h : alook l q = some v) :
    l.filter (fun p => decide (p.1 = q)) = [(q, v)] := by
  induction l with
  | nil => simp [alook] at h
  | cons hd t ih =>
    obtain ⟨k, w⟩ := hd
    simp only [keysOf, List.map_cons, List.nodup_cons] at hn
    by_cases hk : k = q
    · subst hk
      have hw : w = v := by simpa [alook] using h
      subst hw
      have ht : t.filter (fun p => decide (p.1 = k)) = [] := by
        rw [List.filter_eq_nil_iff]
        intro a ha
        simp only [decide_eq_true_eq]
        intro hak
        have hmem : a.1 ∈ keysOf t := by
          simpa [keysOf] using List.mem_map_of_mem Prod.fst ha
        rw [hak] at hmem
        exact hn.1 (by simpa [keysOf] using hmem)
      simp [List.filter_cons, ht]
    · have h2 : alook t q = some v := by simpa [alook, hk] using h
      simp [List.filter_cons, hk, ih (by simpa [keysOf] using hn.2) h2]

/-- Diffing a table against itself minus one present entity yields exactly the
removal marker for that entity. -/
theorem computeEntityDelta_erase (prev : Entities) (pid : String) (e : Fields)
    (hn : (keysOf prev).Nodup) (he : alook prev pid = some e) :
    computeEntityDelta prev (eraseK prev pid) = [(pid, none)] := by
  unfold computeEntityDelta
  have hA : (eraseK prev pid).filterMap
      (fun e => entityDeltaEntry prev e.1 e.2) = [] := by
    rw [List.filterMap_eq_nil_iff]
    intro a ha
    obtain ⟨k, nE⟩ := a
    have hmem := mem_eraseK prev pid (k, nE) ha
    have hk : alook prev k = some nE :=
      alook_eq_some_of_mem_nodup _ _ _ hn hmem.1
    simp [entityDeltaEntry, hk]
  have hpred : ∀ p ∈ prev,
      (!containsK (eraseK prev pid) p.1) = decide (p.1 = pid) := by
    intro p hp
    obtain ⟨k, w⟩ := p
    by_cases hk : k = pid
    · simp [containsK, alook_eraseK, hk]
    · have : (alook prev k).isSome = true := isSome_alook_of_mem _ _ _ hp
      simp [containsK, alook_eraseK, hk, this]
  have hB : prev.filter (fun p => !containsK (eraseK prev pid) p.1) =
      [(pid, e)] := by
    rw [List.filter_congr hpred]
    exact filter_key_eq prev pid e hn he
  rw [hA, hB]
  simp

/-- C2: for every room state and FullDelta, `applyRemoteDelta` returns `false`
and leaves the state (entities, tick, seq) unchanged exactly when the delta
comes from the local instance or its seq is not beyond the room's seq; in
every other case it merges the delta, adopts its seq, fast-forwards tick, and
returns `true`. -/
theorem applyRemoteDelta_reject_iff (selfInstanceId : String)
    (s : RoomStateData) (fd : FullDelta) :
    (((applyRemoteDelta selfInstanceId s fd).2 = false ∧
        (applyRemoteDelta selfInstanceId s fd).1 = s) ↔
      (fd.instanceId = selfInstanceId ∨ fd.seq ≤ s.seq)) ∧
    (¬(fd.instanceId = selfInstanceId ∨ fd.seq ≤ s.seq) →
      applyRemoteDelta selfInstanceId s fd =
        ({ entities := applyDeltaToEntities s.entities fd.delta,
           tick := max s.tick fd.tick, seq := fd.seq }, true)) := by
  by_cases h1 : fd.instanceId = selfInstanceId
  · simp [applyRemoteDelta, shouldApplyRemoteDelta, h1]
  · by_cases h2 : fd.seq ≤ s.seq
    · simp [applyRemoteDelta, shouldApplyRemoteDelta, h1, h2]
    · simp [applyRemoteDelta, shouldApplyRemoteDelta, h1, h2]

/-- C2 witness: concrete instantiation of the rejection characterization. -/
theorem applyRemoteDelta_reject_iff_witness :
    ((((applyRemoteDelta "A" ⟨[], 5, 0⟩ ⟨"r", [], 3, 1, 0, "B"⟩).2 = false ∧
        (applyRemoteDelta "A" ⟨[], 5, 0⟩ ⟨"r", [], 3, 1, 0, "B"⟩).1 =
          (⟨[], 5, 0⟩ : RoomStateData)) ↔
      ((⟨"r", [], 3, 1, 0, "B"⟩ : FullDelta).instanceId = "A" ∨
        (⟨"r", [], 3, 1, 0, "B"⟩ : FullDelta).seq ≤
          (⟨[], 5, 0⟩ : RoomStateData).seq)) ∧
    (¬((⟨"r", [], 3, 1, 0, "B"⟩ : FullDelta).instanceId = "A" ∨
        (⟨"r", [], 3, 1, 0, "B"⟩ : FullDelta).seq ≤
          (⟨[], 5, 0⟩ : RoomStateData).seq) →
      applyRemoteDelta "A" ⟨[], 5, 0⟩ ⟨"r", [], 3, 1, 0, "B"⟩ =
        ({ entities := applyDeltaToEntities ([] : Entities) ([] : EntityDelta),
           tick := max 5 3, seq := 1 }, true))) :=
  applyRemoteDelta_reject_iff "A" ⟨[], 5, 0⟩ ⟨"r", [], 3, 1, 0, "B"⟩

/-- C3 counterexample: a room at tick 5 accepts a remote delta carrying
tick 3, and the resulting tick stays 5, refuting
`new.tick >= old.tick + 1` for a successful `applyRemoteDelta`. -/
theorem remote_tick_increment_counterexample :
    (applyRemoteDelta "A" ⟨[], 5, 0⟩ ⟨"r", [], 3, 1, 0, "B"⟩).2 = true ∧
    ¬((applyRemoteDelta "A" ⟨[], 5, 0⟩ ⟨"r", [], 3, 1, 0, "B"⟩).1.tick ≥
        (⟨[], 5, 0⟩ : RoomStateData).tick + 1) := by
  decide

/-- C3 (amended): after `applyInput` the seq strictly increases and the tick
increases by at least one; after a successful `applyRemoteDelta` the seq
strictly increases while the tick only never decreases (it is fast-forwarded
to the max of the old tick and the remote tick). -/
theorem seq_tick_monotone (s : RoomStateData) (pid : String) (payload : Fields)
    (now : Int) (selfInstanceId : String) (fd : FullDelta) :
    ((applyInput s pid payload now).1.seq > s.seq ∧
      (applyInput s pid payload now).1.tick ≥ s.tick + 1) ∧
    ((applyRemoteDelta selfInstanceId s fd).2 = true →
      (applyRemoteDelta selfInstanceId s fd).1.seq > s.seq ∧
      (applyRemoteDelta selfInstanceId s fd).1.tick ≥ s.tick) := by
  have hseq : (applyInput s pid payload now).1.seq = s.seq + 1 := rfl
  have htick : (applyInput s pid payload now).1.tick = s.tick + 1 := rfl
  refine ⟨⟨by omega, by omega⟩, ?_⟩
  intro h
  by_cases hs : shouldApplyRemoteDelta selfInstanceId fd s.seq = true
  · have hlt : s.seq < fd.seq := by
      simp only [shouldApplyRemoteDelta] at hs
      by_cases h1 : fd.instanceId = selfInstanceId
      · simp [h1] at hs
      · by_cases h2 : fd.seq ≤ s.seq
        · simp [h1, h2] at hs
        · omega
    constructor
    · simpa [applyRemoteDelta, hs] using hlt
    · simp [applyRemoteDelta, hs, le_max_left]
  · simp [applyRemoteDelta, hs] at h

/-- C3 witness: concrete instantiation of the amended monotonicity claim. -/
theorem seq_tick_monotone_witness :
    (applyRemoteDelta "A" ⟨[], 5, 0⟩ ⟨"r", [], 9, 1, 0, "B"⟩).2 = true ∧
    (((applyInput ⟨[], 5, 0⟩ "p" [] 7).1.seq > (⟨[], 5, 0⟩ : RoomStateData).seq ∧
      (applyInput ⟨[], 5, 0⟩ "p" [] 7).1.tick ≥
        (⟨[], 5, 0⟩ : RoomStateData).tick + 1) ∧
    ((applyRemoteDelta "A" ⟨[], 5, 0⟩ ⟨"r", [], 9, 1, 0, "B"⟩).2 = true →
      (applyRemoteDelta "A" ⟨[], 5, 0⟩ ⟨"r", [], 9, 1, 0, "B"⟩).1.seq >
        (⟨[], 5, 0⟩ : RoomStateData).seq ∧
      (applyRemoteDelta "A" ⟨[], 5, 0⟩ ⟨"r", [], 9, 1, 0, "B"⟩).1.tick ≥
        (⟨[], 5, 0⟩ : RoomStateData).tick)) :=
  ⟨by decide, seq_tick_monotone ⟨[], 5, 0⟩ "p" [] 7 "A" ⟨"r", [], 9, 1, 0, "B"⟩⟩

/-- C4: when `applyRemoteDelta` accepts a delta, the room's seq becomes the
delta's seq and the room's tick becomes the max of the previous tick and the
delta's tick. -/
theorem applyRemoteDelta_accept_counters (selfInstanceId : String)
    (s : RoomStateData) (fd : FullDelta)
    (h : (applyRemoteDelta selfInstanceId s fd).2 = true) :
    (applyRemoteDelta selfInstanceId s fd).1.seq = fd.seq ∧
    (applyRemoteDelta selfInstanceId s fd).1.tick = max s.tick fd.tick := by
  by_cases hs : shouldApplyRemoteDelta selfInstanceId fd s.seq = true
  · simp [applyRemoteDelta, hs]
  · simp [applyRemoteDelta, hs] at h

/-- C4 witness: a concrete accepted delta adopts seq 1 and tick max 5 3. -/
theorem applyRemoteDelta_accept_counters_witness :
    (applyRemoteDelta "A" ⟨[], 5, 0⟩ ⟨"r", [], 3, 1, 0, "B"⟩).2 = true ∧
    ((applyRemoteDelta "A" ⟨[], 5, 0⟩ ⟨"r", [], 3, 1, 0, "B"⟩).1.seq =
        (⟨"r", [], 3, 1, 0, "B"⟩ : FullDelta).seq ∧
      (applyRemoteDelta "A" ⟨[], 5, 0⟩ ⟨"r", [], 3, 1, 0, "B"⟩).1.tick =
        max (⟨[], 5, 0⟩ : RoomStateData).tick
          (⟨"r", [], 3, 1, 0, "B"⟩ : FullDelta).tick) :=
  ⟨by decide,
    applyRemoteDelta_accept_counters "A" ⟨[], 5, 0⟩ ⟨"r", [], 3, 1, 0, "B"⟩
      (by decide)⟩

/-- C9: even when the computed delta is empty, `applyInput` still advances
seq and tick by exactly one; the empty delta only suppresses the broadcast
and coordinator publish (the step emits nothing). -/
theorem applyInput_empty_delta_advances (s : RoomStateData) (pid : String)
    (payload : Fields) (now : Int) (selfInstanceId : String)
    (h : isDeltaEmpty (applyInput s pid payload now).2 = true) :
    (applyInput s pid payload now).1.seq = s.seq + 1 ∧
    (applyInput s pid payload now).1.tick = s.tick + 1 ∧
    (stepRoom selfInstanceId s (RoomOp.input pid payload now)).2 = [] := by
  refine ⟨rfl, rfl, ?_⟩
  simp [stepRoom, h]

/-- C9 witness: a duplicate input at the same timestamp yields an empty delta
yet bumps both counters and emits nothing. -/
theorem applyInput_empty_delta_advances_witness :
    isDeltaEmpty
      (applyInput ⟨[("p", [("x", Val.vint 1), ("lastUpdate", Val.vint 5)])], 1, 1⟩
        "p" [("x", Val.vint 1)] 5).2 = true ∧
    ((applyInput ⟨[("p", [("x", Val.vint 1), ("lastUpdate", Val.vint 5)])], 1, 1⟩
        "p" [("x", Val.vint 1)] 5).1.seq =
      (⟨[("p", [("x", Val.vint 1), ("lastUpdate", Val.vint 5)])], 1, 1⟩ :
        RoomStateData).seq + 1 ∧
    (applyInput ⟨[("p", [("x", Val.vint 1), ("lastUpdate", Val.vint 5)])], 1, 1⟩
        "p" [("x", Val.vint 1)] 5).1.tick =
      (⟨[("p", [("x", Val.vint 1), ("lastUpdate", Val.vint 5)])], 1, 1⟩ :
        RoomStateData).tick + 1 ∧
    (stepRoom "A" ⟨[("p", [("x", Val.vint 1), ("lastUpdate", Val.vint 5)])], 1, 1⟩
        (RoomOp.input "p" [("x", Val.vint 1)] 5)).2 = []) :=
  ⟨by decide,
    applyInput_empty_delta_advances
      ⟨[("p", [("x", Val.vint 1), ("lastUpdate", Val.vint 5)])], 1, 1⟩
      "p" [("x", Val.vint 1)] 5 "A" (by decide)⟩

theorem seq_lt_of_shouldApply (selfInstanceId : String) (fd : FullDelta)
    (localSeq : Int)
    (h : shouldApplyRemoteDelta selfInstanceId fd localSeq = true) :
    localSeq < fd.seq := by
  simp only [shouldApplyRemoteDelta] at h
  by_cases h1 : fd.instanceId = selfInstanceId
  · simp [h1] at h
  · by_cases h2 : fd.seq ≤ localSeq
    · simp [h1, h2] at h
    · omega

theorem stepRoom_seq_mono (selfInstanceId : String) (s : RoomStateData)
    (op : RoomOp) : s.seq ≤ (stepRoom selfInstanceId s op).1.seq := by
  cases op with
  | input pid payload now =>
    have h : (stepRoom selfInstanceId s (RoomOp.input pid payload now)).1.seq =
        s.seq + 1 := rfl
    omega
  | depart pid =>
    by_cases hc : containsK s.entities pid = true
    · have h : (stepRoom selfInstanceId s (RoomOp.depart pid)).1.seq =
          s.seq + 1 := by
        simp [stepRoom, removeEntity, hc]
      omega
    · simp [stepRoom, removeEntity, hc]
  | remote fd =>
    by_cases hs : shouldApplyRemoteDelta selfInstanceId fd s.seq = true
    · have h := seq_lt_of_shouldApply selfInstanceId fd s.seq hs
      have h2 : (stepRoom selfInstanceId s (RoomOp.remote fd)).1.seq = fd.seq := by
        simp [stepRoom, applyRemoteDelta, hs]
      omega
    · simp [stepRoom, applyRemoteDelta, hs]

theorem stepRoom_emit_short (selfInstanceId : String) (s : RoomStateData)
    (op : RoomOp) :
    (stepRoom selfInstanceId s op).2 = [] ∨
    (stepRoom selfInstanceId s op).2 = [(stepRoom selfInstanceId s op).1.seq] := by
  cases op with
  | input pid payload now =>
    by_cases hd : isDeltaEmpty (applyInput s pid payload now).2 = true
    · exact Or.inl (by simp [stepRoom, hd])
    · exact Or.inr (by simp [stepRoom, hd])
  | depart pid =>
    by_cases hd : isDeltaEmpty (removeEntity s pid).2 = true
    · exact Or.inl (by simp [stepRoom, hd])
    · exact Or.inr (by simp [stepRoom, hd])
  | remote fd =>
    by_cases he : ((applyRemoteDelta selfInstanceId s fd).2 &&
        !isDeltaEmpty fd.delta) = true
    · exact Or.inr (by simp [stepRoom, he])
    · exact Or.inl (by simp [stepRoom, he])

theorem stepRoom_emit_elem (selfInstanceId : String) (s : RoomStateData)
    (op : RoomOp) :
    ∀ x ∈ (stepRoom selfInstanceId s op).2,
      s.seq < x ∧ x = (stepRoom selfInstanceId s op).1.seq := by
  intro x hx
  cases op with
  | input pid payload now =>
    by_cases hd : isDeltaEmpty (applyInput s pid payload now).2 = true
    · simp [stepRoom, hd] at hx
    · have hstep : (stepRoom selfInstanceId s (RoomOp.input pid payload now)).2 =
          [(stepRoom selfInstanceId s (RoomOp.input pid payload now)).1.seq] := by
        simp [stepRoom, hd]
      rw [hstep, List.mem_singleton] at hx
      subst hx
      refine ⟨?_, rfl⟩
      have h : (applyInput s pid payload now).1.seq = s.seq + 1 := rfl
      have h2 : (stepRoom selfInstanceId s (RoomOp.input pid payload now)).1.seq =
          (applyInput s pid payload now).1.seq := rfl
      omega
  | depart pid =>
    by_cases hc : containsK s.entities pid = true
    · by_cases hd : isDeltaEmpty (removeEntity s pid).2 = true
      · simp [stepRoom, hd] at hx
      · have hstep : (stepRoom selfInstanceId s (RoomOp.depart pid)).2 =
            [(stepRoom selfInstanceId s (RoomOp.depart pid)).1.seq] := by
          simp [stepRoom, hd]
        rw [hstep, List.mem_singleton] at hx
        subst hx
        refine ⟨?_, rfl⟩
        have h : (removeEntity s pid).1.seq = s.seq + 1 := by
          simp [removeEntity, hc]
        have h2 : (stepRoom selfInstanceId s (RoomOp.depart pid)).1.seq =
            (removeEntity s pid).1.seq := rfl
        omega
    · have hr : removeEntity s pid = (s, []) := by
        simp [removeEntity, hc]
      simp [stepRoom, hr, isDeltaEmpty] at hx
  | remote fd =>
    by_cases hs : shouldApplyRemoteDelta selfInstanceId fd s.seq = true
    · by_cases hd : isDeltaEmpty fd.delta = true
      · have hcond : ((applyRemoteDelta selfInstanceId s fd).2 &&
            !isDeltaEmpty fd.delta) = false := by simp [hd]
        simp [stepRoom, hcond] at hx
      · have hacc : (applyRemoteDelta selfInstanceId s fd).2 = true := by
          simp [applyRemoteDelta, hs]
        have hcond : ((applyRemoteDelta selfInstanceId s fd).2 &&
            !isDeltaEmpty fd.delta) = true := by simp [hacc, hd]
        have hstep : (stepRoom selfInstanceId s (RoomOp.remote fd)).2 =
            [(stepRoom selfInstanceId s (RoomOp.remote fd)).1.seq] := by
          simp [stepRoom, hcond]
        rw [hstep, List.mem_singleton] at hx
        subst hx
        refine ⟨?_, rfl⟩
        have h : (applyRemoteDelta selfInstanceId s fd).1.seq = fd.seq := by
          simp [applyRemoteDelta, hs]
        have h2 : (stepRoom selfInstanceId s (RoomOp.remote fd)).1.seq =
            (applyRemoteDelta selfInstanceId s fd).1.seq := rfl
        have hlt := seq_lt_of_shouldApply selfInstanceId fd s.seq hs
        omega
    · have hacc : (applyRemoteDelta selfInstanceId s fd).2 = false := by
        simp [applyRemoteDelta, hs]
      have hcond : ((applyRemoteDelta selfInstanceId s fd).2 &&
          !isDeltaEmpty fd.delta) = false := by simp [hacc]
      simp [stepRoom, hcond] at hx

theorem runRoom_seq_mono (selfInstanceId : String) (ops : List RoomOp)
    (s : RoomStateData) : s.seq ≤ (runRoom selfInstanceId s ops).1.seq := by
  induction ops generalizing s with
  | nil => exact le_refl _
  | cons op t ih =>
    have h1 := stepRoom_seq_mono selfInstanceId s op
    have h2 := ih (stepRoom selfInstanceId s op).1
    calc s.seq ≤ (stepRoom selfInstanceId s op).1.seq := h1
      _ ≤ _ := h2

theorem runRoom_emits_gt (selfInstanceId : String) (ops : List RoomOp)
    (s : RoomStateData) :
    ∀ x ∈ (runRoom selfInstanceId s ops).2, s.seq < x := by
  induction ops generalizing s with
  | nil => simp [runRoom]
  | cons op t ih =>
    intro x hx
    rcases List.mem_append.mp hx with h1 | h1
    · exact (stepRoom_emit_elem selfInstanceId s op x h1).1
    · have h2 := ih (stepRoom selfInstanceId s op).1 x h1
      have h3 := stepRoom_seq_mono selfInstanceId s op
      omega


/-- C6 counterexample: a room receiving the same input twice at the same
timestamp emits seq values 1 and then 3 (the duplicate input advances seq
without emitting), so the emitted seq stream has a gap. -/
theorem emitted_seq_gap_counterexample :
    (runRoom "A" ⟨[], 0, 0⟩
      [RoomOp.input "p" [("x", Val.vint 1)] 5,
       RoomOp.input "p" [("x", Val.vint 1)] 5,
       RoomOp.input "p" [("x", Val.vint 2)] 6]).2 = [1, 3] ∧
    noGapsB (runRoom "A" ⟨[], 0, 0⟩
        [RoomOp.input "p" [("x", Val.vint 1)] 5,
         RoomOp.input "p" [("x", Val.vint 1)] 5,
         RoomOp.input "p" [("x", Val.vint 2)] 6]).2 = false := by
  decide

/-- C6 (amended): over any sequence of room operations, every emitted delta
carries the room's seq at the moment of emission, and the emitted seq values
are strictly increasing and all exceed the initial seq; gaps are possible
because an operation whose computed delta is empty advances seq without
emitting. -/
theorem emitted_seq_strictly_increasing (selfInstanceId : String)
    (s : RoomStateData) (ops : List RoomOp) :
    List.Pairwise (· < ·) (runRoom selfInstanceId s ops).2 ∧
    (∀ x ∈ (runRoom selfInstanceId s ops).2, s.seq < x) ∧
    (∀ op x, x ∈ (stepRoom selfInstanceId s op).2 →
      x = (stepRoom selfInstanceId s op).1.seq) := by
  refine ⟨?_, runRoom_emits_gt selfInstanceId ops s,
    fun op x hx => (stepRoom_emit_elem selfInstanceId s op x hx).2⟩
  induction ops generalizing s with
  | nil => simp [runRoom]
  | cons op t ih =>
    have hrun : (runRoom selfInstanceId s (op :: t)).2 =
        (stepRoom selfInstanceId s op).2 ++
          (runRoom selfInstanceId (stepRoom selfInstanceId s op).1 t).2 := rfl
    rw [hrun, List.pairwise_append]
    refine ⟨?_, ih (stepRoom selfInstanceId s op).1, ?_⟩
    · rcases stepRoom_emit_short selfInstanceId s op with hshort | hshort
      · rw [hshort]
        exact List.Pairwise.nil
      · rw [hshort]
        exact List.pairwise_singleton _ _
    · intro a ha b hb
      have h1 := (stepRoom_emit_elem selfInstanceId s op a ha).2
      have h2 := runRoom_emits_gt selfInstanceId t
        (stepRoom selfInstanceId s op).1 b hb
      omega

/-- C6 witness: concrete instantiation of the amended emission ordering. -/
theorem emitted_seq_strictly_increasing_witness :
    List.Pairwise (· < ·)
      (runRoom "A" ⟨[], 0, 0⟩
        [RoomOp.input "p" [("x", Val.vint 1)] 5,
         RoomOp.input "p" [("x", Val.vint 1)] 5,
         RoomOp.input "p" [("x", Val.vint 2)] 6]).2 ∧
    (∀ x ∈ (runRoom "A" ⟨[], 0, 0⟩
        [RoomOp.input "p" [("x", Val.vint 1)] 5,
         RoomOp.input "p" [("x", Val.vint 1)] 5,
         RoomOp.input "p" [("x", Val.vint 2)] 6]).2,
      (⟨[], 0, 0⟩ : RoomStateData).seq < x) ∧
    (∀ op x, x ∈ (stepRoom "A" ⟨[], 0, 0⟩ op).2 →
      x = (stepRoom "A" ⟨[], 0, 0⟩ op).1.seq) :=
  emitted_seq_strictly_increasing "A" ⟨[], 0, 0⟩
    [RoomOp.input "p" [("x", Val.vint 1)] 5,
     RoomOp.input "p" [("x", Val.vint 1)] 5,
     RoomOp.input "p" [("x", Val.vint 2)] 6]

/-- C10: removing an entity that is not present returns the empty delta and
leaves the room state (entities, tick, seq) entirely unchanged. -/
theorem removeEntity_absent_noop (s : RoomStateData) (pid : String)
    (h : alook s.entities pid = none) :
    removeEntity s pid = (s, []) := by
  simp [removeEntity, containsK, h]

/-- C5: `applyInput` increments seq and tick by exactly one, leaves other
entities alone, replaces the player's entity by the previous entity (empty if
absent) overlaid with the payload plus a `lastUpdate` stamp, and returns the
delta computed from the pre-input against the post-input entity table. -/
theorem applyInput_spec (s : RoomStateData) (pid : String) (payload : Fields)
    (now : Int) (hn : (keysOf payload).Nodup) :
    (applyInput s pid payload now).1.seq = s.seq + 1 ∧
    (applyInput s pid payload now).1.tick = s.tick + 1 ∧
    (applyInput s pid payload now).2 =
      computeEntityDelta s.entities (applyInput s pid payload now).1.entities ∧
    (∀ q, ¬q = pid →
      alook (applyInput s pid payload now).1.entities q = alook s.entities q) ∧
    alook (applyInput s pid payload now).1.entities pid =
      some (setK (overlayK ((alook s.entities pid).getD []) payload)
        "lastUpdate" (Val.vint now)) ∧
    (∀ f, alook ((alook (applyInput s pid payload now).1.entities pid).getD []) f =
      if f = "lastUpdate" then some (Val.vint now)
      else match alook payload f with
        | some v => some v
        | none => alook ((alook s.entities pid).getD []) f) := by
  refine ⟨rfl, rfl, rfl, ?_, ?_, ?_⟩
  · intro q hq
    show alook (setK s.entities pid _) q = alook s.entities q
    rw [alook_setK]
    simp [hq]
  · show alook (setK s.entities pid _) pid = _
    rw [alook_setK]
    simp
  · intro f
    show alook ((alook (setK s.entities pid
      (setK (overlayK ((alook s.entities pid).getD []) payload)
        "lastUpdate" (Val.vint now))) pid).getD []) f = _
    rw [alook_setK, if_pos rfl, Option.getD_some, alook_setK]
    by_cases hf : f = "lastUpdate"
    · simp [hf]
    · rw [if_neg hf, if_neg hf, alook_overlayK _ _ _ hn]
      rcases hp : alook payload f with _ | v <;> simp [hp]

/-- C5 witness: concrete instantiation on a room holding one entity. -/
theorem applyInput_spec_witness :
    (keysOf [("x", Val.vint 2)]).Nodup ∧
    ((applyInput ⟨[("p", [("x", Val.vint 1), ("y", Val.vint 7)])], 3, 4⟩
        "p" [("x", Val.vint 2)] 9).1.seq =
      (⟨[("p", [("x", Val.vint 1), ("y", Val.vint 7)])], 3, 4⟩ :
        RoomStateData).seq + 1 ∧
    (applyInput ⟨[("p", [("x", Val.vint 1), ("y", Val.vint 7)])], 3, 4⟩
        "p" [("x", Val.vint 2)] 9).1.tick =
      (⟨[("p", [("x", Val.vint 1), ("y", Val.vint 7)])], 3, 4⟩ :
        RoomStateData).tick + 1 ∧
    (applyInput ⟨[("p", [("x", Val.vint 1), ("y", Val.vint 7)])], 3, 4⟩
        "p" [("x", Val.vint 2)] 9).2 =
      computeEntityDelta
        (⟨[("p", [("x", Val.vint 1), ("y", Val.vint 7)])], 3, 4⟩ :
          RoomStateData).entities
        (applyInput ⟨[("p", [("x", Val.vint 1), ("y", Val.vint 7)])], 3, 4⟩
          "p" [("x", Val.vint 2)] 9).1.entities ∧
    (∀ q, ¬q = "p" →
      alook (applyInput ⟨[("p", [("x", Val.vint 1), ("y", Val.vint 7)])], 3, 4⟩
          "p" [("x", Val.vint 2)] 9).1.entities q =
        alook (⟨[("p", [("x", Val.vint 1), ("y", Val.vint 7)])], 3, 4⟩ :
          RoomStateData).entities q) ∧
    alook (applyInput ⟨[("p", [("x", Val.vint 1), ("y", Val.vint 7)])], 3, 4⟩
        "p" [("x", Val.vint 2)] 9).1.entities "p" =
      some (setK (overlayK ((alook (⟨[("p", [("x", Val.vint 1),
          ("y", Val.vint 7)])], 3, 4⟩ : RoomStateData).entities "p").getD [])
        [("x", Val.vint 2)]) "lastUpdate" (Val.vint 9)) ∧
    (∀ f, alook ((alook (applyInput ⟨[("p", [("x", Val.vint 1),
          ("y", Val.vint 7)])], 3, 4⟩
        "p" [("x", Val.vint 2)] 9).1.entities "p").getD []) f =
      if f = "lastUpdate" then some (Val.vint 9)
      else match alook [("x", Val.vint 2)] f with
        | some v => some v
        | none => alook ((alook (⟨[("p", [("x", Val.vint 1),
            ("y", Val.vint 7)])], 3, 4⟩ : RoomStateData).entities "p").getD []) f)) :=
  ⟨by decide,
    applyInput_spec ⟨[("p", [("x", Val.vint 1), ("y", Val.vint 7)])], 3, 4⟩
      "p" [("x", Val.vint 2)] 9 (by decide)⟩

/-- C8: removing a present entity deletes it, bumps seq and tick by exactly
one, and returns the singleton removal delta for that player. -/
theorem removeEntity_present_spec (s : RoomStateData) (pid : String)
    (e : Fields) (hn : (keysOf s.entities).Nodup)
    (he : alook s.entities pid = some e) :
    removeEntity s pid =
      ({ entities := eraseK s.entities pid, tick := s.tick + 1,
         seq := s.seq + 1 }, [(pid, none)]) := by
  have hc : containsK s.entities pid = true := by simp [containsK, he]
  simp only [removeEntity, hc, if_true]
  rw [computeEntityDelta_erase s.entities pid e hn he]

/-- C8 witness: removing the only entity of a concrete room. -/
theorem removeEntity_present_spec_witness :
    (keysOf (⟨[("p", [("x", Val.vint 1)])], 1, 1⟩ :
        RoomStateData).entities).Nodup ∧
    alook (⟨[("p", [("x", Val.vint 1)])], 1, 1⟩ :
        RoomStateData).entities "p" = some [("x", Val.vint 1)] ∧
    removeEntity ⟨[("p", [("x", Val.vint 1)])], 1, 1⟩ "p" =
      ({ entities := eraseK (⟨[("p", [("x", Val.vint 1)])], 1, 1⟩ :
            RoomStateData).entities "p",
         tick := (1 : Int) + 1, seq := (1 : Int) + 1 }, [("p", none)]) :=
  ⟨by decide, by decide,
    removeEntity_present_spec ⟨[("p", [("x", Val.vint 1)])], 1, 1⟩ "p"
      [("x", Val.vint 1)] (by decide) (by decide)⟩

/-- C10 witness: removing a missing player from a concrete room is a no-op. -/
theorem removeEntity_absent_noop_witness :
    alook (⟨[("q", [])], 3, 7⟩ : RoomStateData).entities "p" = none ∧
    removeEntity ⟨[("q", [])], 3, 7⟩ "p" = (⟨[("q", [])], 3, 7⟩, []) :=
  ⟨by decide, removeEntity_absent_noop ⟨[("q", [])], 3, 7⟩ "p" (by decide)⟩

theorem applyFieldChange_some_of_ne (v : Val) (hv : ¬v = Val.vnull)
    (cur : Option Val) : applyFieldChange (some v) cur = some v := by
  cases v with
  | vnull => exact absurd rfl hv
  | vbool b => rfl
  | vint n => rfl
  | vstr s => rfl
  | vobj o => rfl

theorem alook_updateEntityFields (ch : Fields) (cur : Fields) (f : String)
    (hn : (keysOf ch).Nodup) :
    alook (updateEntityFields cur ch) f =
      applyFieldChange (alook ch f) (alook cur f) := by
  induction ch generalizing cur with
  | nil => simp [updateEntityFields, applyFieldChange, alook]
  | cons p t ih =>
    obtain ⟨g, v⟩ := p
    simp only [keysOf, List.map_cons, List.nodup_cons] at hn
    have step : updateEntityFields cur ((g, v) :: t) =
        updateEntityFields
          (if v = Val.vnull then eraseK cur g else setK cur g v) t := rfl
    rw [step, ih _ (by simpa [keysOf] using hn.2)]
    by_cases hg : g = f
    · subst hg
      have ht : alook t g = none :=
        alook_none_of_not_mem_keys t g (by simpa [keysOf] using hn.1)
      rw [ht]
      have hc : alook ((g, v) :: t) g = some v := by simp [alook]
      rw [hc]
      by_cases hv : v = Val.vnull
      · subst hv
        simp [applyFieldChange, alook_eraseK]
      · rw [applyFieldChange_some_of_ne v hv, if_neg hv]
        have : alook (setK cur g v) g = some v := by simp [alook_setK]
        simp [applyFieldChange, this]
    · have hc : alook ((g, v) :: t) f = alook t f := by simp [alook, hg]
      rw [hc]
      have h2 : alook (if v = Val.vnull then eraseK cur g else setK cur g v) f =
          alook cur f := by
        by_cases hv : v = Val.vnull
        · rw [if_pos hv, alook_eraseK, if_neg (fun hh => hg hh.symm)]
        · rw [if_neg hv, alook_setK, if_neg (fun hh => hg hh.symm)]
      rw [h2]

theorem alook_applyOneDelta (es : Entities) (id : String) (ch : Option Fields)
    (q : String) :
    alook (applyOneDelta es id ch) q =
      if q = id then
        (match ch with
         | none => none
         | some c =>
           match alook es id with
           | none => some c
           | some cur => some (updateEntityFields cur c))
      else alook es q := by
  cases ch with
  | none => simp [applyOneDelta, alook_eraseK]
  | some c =>
    cases hs : alook es id with
    | none => simp [applyOneDelta, hs, alook_setK]
    | some cur => simp [applyOneDelta, hs, alook_setK]

theorem alook_applyDeltaToEntities (d : EntityDelta) (es : Entities)
    (q : String) (hn : (keysOf d).Nodup) :
    alook (applyDeltaToEntities es d) q =
      match alook d q with
      | none => alook es q
      | some none => none
      | some (some ch) =>
        match alook es q with
        | none => some ch
        | some cur => some (updateEntityFields cur ch) := by
  induction d generalizing es with
  | nil => simp [applyDeltaToEntities, alook]
  | cons p t ih =>
    obtain ⟨k, c⟩ := p
    simp only [keysOf, List.map_cons, List.nodup_cons] at hn
    have step : applyDeltaToEntities es ((k, c) :: t) =
        applyDeltaToEntities (applyOneDelta es k c) t := rfl
    rw [step, ih _ (by simpa [keysOf] using hn.2)]
    by_cases hk : k = q
    · subst hk
      have ht : alook t k = none :=
        alook_none_of_not_mem_keys t k (by simpa [keysOf] using hn.1)
      have hc : alook ((k, c) :: t) k = some c := by simp [alook]
      rw [ht, hc, alook_applyOneDelta, if_pos rfl]
      cases c with
      | none => rfl
      | some ch => cases alook es k <;> rfl
    · have hc : alook ((k, c) :: t) q = alook t q := by simp [alook, hk]
      have hone : alook (applyOneDelta es k c) q = alook es q := by
        rw [alook_applyOneDelta, if_neg (fun hh => hk hh.symm)]
      rw [hc, hone]

theorem entityDeltaEntry_key (prev : Entities) (id : String) (nE : Fields)
    (pr : String × Option Fields) (h : entityDeltaEntry prev id nE = some pr) :
    pr.1 = id := by
  cases hp : alook prev id with
  | none =>
    simp only [entityDeltaEntry, hp] at h
    cases h
    rfl
  | some pE =>
    simp only [entityDeltaEntry, hp] at h
    by_cases he : pE = nE
    · simp [he] at h
    · simp only [he, if_false] at h
      by_cases hfd : computeFieldDelta pE nE = []
      · simp [hfd] at h
      · simp only [hfd, if_false, Option.some.injEq] at h
        cases h
        rfl

theorem alook_filterMap_entity_none (prev next : Entities) (id : String)
    (h : alook next id = none) :
    alook (next.filterMap fun e => entityDeltaEntry prev e.1 e.2) id = none := by
  induction next with
  | nil => rfl
  | cons p t ih =>
    obtain ⟨k, nE⟩ := p
    by_cases hk : k = id
    · rw [hk] at h
      simp [alook] at h
    · have h2 : alook t id = none := by simpa [alook, hk] using h
      cases hE : entityDeltaEntry prev k nE with
      | none => simpa [List.filterMap_cons, hE] using ih h2
      | some pr =>
        have hpr : pr.1 = k := entityDeltaEntry_key prev k nE pr hE
        have : alook (pr :: t.filterMap fun e => entityDeltaEntry prev e.1 e.2)
            id = alook (t.filterMap fun e => entityDeltaEntry prev e.1 e.2) id := by
          simp [alook, hpr, hk]
        simpa [List.filterMap_cons, hE, this] using ih h2

theorem alook_filterMap_entity (prev next : Entities) (id : String)
    (hn : (keysOf next).Nodup) :
    alook (next.filterMap fun e => entityDeltaEntry prev e.1 e.2) id =
      match alook next id with
      | none => none
      | some nE => (entityDeltaEntry prev id nE).map Prod.snd := by
  induction next with
  | nil => rfl
  | cons p t ih =>
    obtain ⟨k, nE⟩ := p
    simp only [keysOf, List.map_cons, List.nodup_cons] at hn
    by_cases hk : k = id
    · subst hk
      have ht : alook t k = none :=
        alook_none_of_not_mem_keys t k (by simpa [keysOf] using hn.1)
      have hc : alook ((k, nE) :: t) k = some nE := by simp [alook]
      rw [hc]
      cases hE : entityDeltaEntry prev k nE with
      | none =>
        simp only [List.filterMap_cons, hE]
        rw [alook_filterMap_entity_none prev t k ht]
        rfl
      | some pr =>
        have hpr : pr.1 = k := entityDeltaEntry_key prev k nE pr hE
        simp [List.filterMap_cons, hE, alook, hpr]
    · have hc : alook ((k, nE) :: t) id = alook t id := by simp [alook, hk]
      rw [hc, ← ih (by simpa [keysOf] using hn.2)]
      cases hE : entityDeltaEntry prev k nE with
      | none => simp [List.filterMap_cons, hE]
      | some pr =>
        have hpr : pr.1 = k := entityDeltaEntry_key prev k nE pr hE
        simp [List.filterMap_cons, hE, alook, hpr, hk]

theorem alook_filter_not_contains_map_const {α β γ : Type}
    (n : List (String × γ)) (l : List (String × α)) (c : β) (q : String) :
    alook ((l.filter fun e => !containsK n e.1).map fun e => (e.1, c)) q =
      if containsK n q then none else (alook l q).map fun _ => c := by
  induction l with
  | nil =>
    by_cases hc : containsK n q = true <;> simp [alook, hc]
  | cons p t ih =>
    obtain ⟨k, v⟩ := p
    by_cases hk : k = q
    · subst hk
      by_cases hc : containsK n k = true
      · simpa [List.filter_cons, hc] using ih
      · simp [List.filter_cons, hc, alook]
    · by_cases hc : containsK n k = true
      · have hl : alook ((k, v) :: t) q = alook t q := by simp [alook, hk]
        simpa [List.filter_cons, hc, hl] using ih
      · have hl : alook ((k, v) :: t) q = alook t q := by simp [alook, hk]
        simp only [List.filter_cons, hc, Bool.not_false, if_true, List.map_cons]
        have h2 : alook ((k, c) ::
            ((t.filter fun e => !containsK n e.1).map fun e => (e.1, c))) q =
            alook ((t.filter fun e => !containsK n e.1).map fun e => (e.1, c))
              q := by
          simp [alook, hk]
        rw [h2, hl] at *
        simpa [hl] using ih

theorem alook_computeEntityDelta (prev next : Entities) (id : String)
    (hnn : (keysOf next).Nodup) :
    alook (computeEntityDelta prev next) id =
      match alook next id with
      | some nE => (entityDeltaEntry prev id nE).map Prod.snd
      | none =>
        match alook prev id with
        | some _ => some none
        | none => none := by
  unfold computeEntityDelta
  rw [alook_append, alook_filterMap_entity prev next id hnn,
    alook_filter_not_contains_map_const next prev (none : Option Fields) id]
  cases hn : alook next id with
  | some nE =>
    have hc : containsK next id = true := by simp [containsK, hn]
    cases hE : entityDeltaEntry prev id nE with
    | none => simp [hc, hE]
    | some pr => simp [hc, hE]
  | none =>
    have hc : containsK next id = false := by simp [containsK, hn]
    cases hp : alook prev id with
    | none => simp [hc, hp]
    | some pE => simp [hc, hp]

theorem keysOf_map_const {α β : Type} (l : List (String × α)) (c : β) :
    keysOf (l.map fun e => (e.1, c)) = keysOf l := by
  induction l with
  | nil => rfl
  | cons p t ih => simp [keysOf, ih]

theorem keysOf_filter_sublist {α : Type} (p : String × α → Bool)
    (l : List (String × α)) : (keysOf (l.filter p)).Sublist (keysOf l) :=
  (List.filter_sublist l).map Prod.fst

theorem keysOf_filterMap_entity_sublist (prev next : Entities) :
    (keysOf (next.filterMap fun e => entityDeltaEntry prev e.1 e.2)).Sublist
      (keysOf next) := by
  induction next with
  | nil => exact List.Sublist.refl _
  | cons p t ih =>
    obtain ⟨k, nE⟩ := p
    cases hE : entityDeltaEntry prev k nE with
    | none =>
      simp only [List.filterMap_cons, hE, keysOf, List.map_cons]
      exact ih.cons k
    | some pr =>
      have hpr : pr.1 = k := entityDeltaEntry_key prev k nE pr hE
      simp only [List.filterMap_cons, hE, keysOf, List.map_cons, hpr]
      exact ih.cons₂ k

theorem exists_pred_of_mem_keys_filter {α : Type} (p : String × α → Bool)
    (l : List (String × α)) (q : String) (h : q ∈ keysOf (l.filter p)) :
    ∃ v, (q, v) ∈ l ∧ p (q, v) = true := by
  have h2 : ∃ e ∈ l.filter p, e.1 = q := by
    simpa [keysOf, List.mem_map] using h
  rcases h2 with ⟨⟨a, b⟩, hmem, hfst⟩
  cases hfst
  have h3 := List.mem_filter.mp hmem
  exact ⟨b, h3.1, h3.2⟩

theorem computeEntityDelta_keys_nodup (prev next : Entities)
    (hp : (keysOf prev).Nodup) (hn : (keysOf next).Nodup) :
    (keysOf (computeEntityDelta prev next)).Nodup := by
  unfold computeEntityDelta
  have hsplit : keysOf ((next.filterMap fun e => entityDeltaEntry prev e.1 e.2) ++
      ((prev.filter fun e => !containsK next e.1).map fun e =>
        (e.1, (none : Option Fields)))) =
      keysOf (next.filterMap fun e => entityDeltaEntry prev e.1 e.2) ++
      keysOf ((prev.filter fun e => !containsK next e.1).map fun e =>
        (e.1, (none : Option Fields))) := by
    simp [keysOf]
  rw [hsplit, List.nodup_append]
  refine ⟨(keysOf_filterMap_entity_sublist prev next).nodup hn,
    ?_, ?_⟩
  · rw [keysOf_map_const]
    exact (keysOf_filter_sublist _ prev).nodup hp
  · intro a ha hb
    have ha2 : a ∈ keysOf next :=
      (keysOf_filterMap_entity_sublist prev next).mem ha
    rw [keysOf_map_const] at hb
    rcases exists_pred_of_mem_keys_filter _ prev a hb with ⟨v, _, hpred⟩
    have hc : containsK next a = true := (mem_keys_iff_containsK next a).mp ha2
    rw [hc] at hpred
    simp at hpred

theorem alook_filter_none {α : Type} (p : String × α → Bool)
    (l : List (String × α)) (q : String) (h : alook l q = none) :
    alook (l.filter p) q = none := by
  induction l with
  | nil => rfl
  | cons e t ih =>
    obtain ⟨k, v⟩ := e
    by_cases hk : k = q
    · rw [hk] at h
      simp [alook] at h
    · have h2 : alook t q = none := by simpa [alook, hk] using h
      by_cases hp : p (k, v) = true
      · simpa [List.filter_cons, hp, alook, hk] using ih h2
      · simpa [List.filter_cons, hp] using ih h2

theorem alook_filter_nodup {α : Type} (p : String × α → Bool)
    (l : List (String × α)) (q : String) (hn : (keysOf l).Nodup) :
    alook (l.filter p) q =
      match alook l q with
      | none => none
      | some v => if p (q, v) then some v else none := by
  induction l with
  | nil => rfl
  | cons e t ih =>
    obtain ⟨k, v⟩ := e
    simp only [keysOf, List.map_cons, List.nodup_cons] at hn
    by_cases hk : k = q
    · subst hk
      have ht : alook t k = none :=
        alook_none_of_not_mem_keys t k (by simpa [keysOf] using hn.1)
      have hc : alook ((k, v) :: t) k = some v := by simp [alook]
      rw [hc]
      by_cases hp : p (k, v) = true
      · simp [List.filter_cons, hp, alook]
      · have h0 := alook_filter_none p t k ht
        simp [List.filter_cons, hp, h0]
    · have hc : alook ((k, v) :: t) q = alook t q := by simp [alook, hk]
      rw [hc, ← ih (by simpa [keysOf] using hn.2)]
      by_cases hp : p (k, v) = true
      · simp [List.filter_cons, hp, alook, hk]
      · simp [List.filter_cons, hp]

theorem computeFieldDelta_keys_nodup (pE nE : Fields)
    (hp : (keysOf pE).Nodup) (hn : (keysOf nE).Nodup) :
    (keysOf (computeFieldDelta pE nE)).Nodup := by
  unfold computeFieldDelta
  have hsplit : keysOf ((nE.filter fun fv =>
        decide (¬alook pE fv.1 = some fv.2)) ++
      ((pE.filter fun fv => !containsK nE fv.1).map fun fv =>
        (fv.1, Val.vnull))) =
      keysOf (nE.filter fun fv => decide (¬alook pE fv.1 = some fv.2)) ++
      keysOf ((pE.filter fun fv => !containsK nE fv.1).map fun fv =>
        (fv.1, Val.vnull)) := by
    simp [keysOf]
  rw [hsplit, List.nodup_append]
  refine ⟨(keysOf_filter_sublist _ nE).nodup hn, ?_, ?_⟩
  · rw [keysOf_map_const]
    exact (keysOf_filter_sublist _ pE).nodup hp
  · intro a ha hb
    have ha2 : a ∈ keysOf nE := (keysOf_filter_sublist _ nE).mem ha
    rw [keysOf_map_const] at hb
    rcases exists_pred_of_mem_keys_filter _ pE a hb with ⟨v, _, hpred⟩
    have hc : containsK nE a = true := (mem_keys_iff_containsK nE a).mp ha2
    rw [hc] at hpred
    simp at hpred

theorem fieldsEqv_of_computeFieldDelta_nil (pE nE : Fields)
    (h : computeFieldDelta pE nE = []) : fieldsEqv pE nE := by
  unfold computeFieldDelta at h
  rw [List.append_eq_nil] at h
  obtain ⟨h1, h2⟩ := h
  rw [List.filter_eq_nil_iff] at h1
  rw [List.map_eq_nil_iff] at h2
  rw [List.filter_eq_nil_iff] at h2
  intro f
  rcases hn : alook nE f with _ | v
  · rcases hp : alook pE f with _ | w
    · rfl
    · have hmem := mem_of_alook_eq_some pE f w hp
      have hcont := h2 (f, w) hmem
      rw [containsK, hn] at hcont
      simp at hcont
  · have hmem := mem_of_alook_eq_some nE f v hn
    have heq := h1 (f, v) hmem
    simp only [decide_eq_true_eq, not_not] at heq
    rw [heq]

/-- C1 counterexample: with `x = {e:{f:1}}` and `y = {e:{f:null}}`, the
computed delta encodes the null field value as a removal marker, so applying
it deletes `f` instead of setting it to null: the round trip yields
`{e:{}}`, which is not (even extensionally) equal to `y`. -/
theorem apply_compute_roundtrip_counterexample :
    ¬entitiesEqv
      (applyDeltaToEntities [("e", [("f", Val.vint 1)])]
        (computeEntityDelta [("e", [("f", Val.vint 1)])]
          [("e", [("f", Val.vnull)])]))
      [("e", [("f", Val.vnull)])] := by
  intro h
  have h1 := h "e"
  have hres : applyDeltaToEntities [("e", [("f", Val.vint 1)])]
      (computeEntityDelta [("e", [("f", Val.vint 1)])]
        [("e", [("f", Val.vnull)])]) = [("e", ([] : Fields))] := by decide
  rw [hres] at h1
  rw [(by decide : alook [("e", ([] : Fields))] "e" = some []),
      (by decide : alook [("e", [("f", Val.vnull)])] "e" =
        some [("f", Val.vnull)])] at h1
  have h2 : alook ([] : Fields) "f" = alook [("f", Val.vnull)] "f" := h1 "f"
  exact absurd h2 (by decide)

/-- C1 (amended): provided no entity field value in the target table is the
JSON null value, applying the computed delta to the original table
reconstructs the target: for well-formed tables `x` and `y`,
`applyDeltaToEntities x (computeEntityDelta x y)` is extensionally equal
to `y`. -/
theorem apply_compute_roundtrip (x y : Entities)
    (hx : EntitiesWF x) (hy : EntitiesWF y) (hnull : NoNullFieldValues y) :
    entitiesEqv (applyDeltaToEntities x (computeEntityDelta x y)) y := by
  intro id
  rw [alook_applyDeltaToEntities _ _ _
      (computeEntityDelta_keys_nodup x y hx.1 hy.1),
    alook_computeEntityDelta x y id hy.1]
  rcases hyid : alook y id with _ | nE
  · rcases hxid : alook x id with _ | pE
    · simp [optFieldsEqv]
    · simp [optFieldsEqv]
  · rcases hxid : alook x id with _ | pE
    · simp only [entityDeltaEntry, hxid, Option.map_some]
      show optFieldsEqv (some nE) (some nE)
      exact fun f => rfl
    · simp only [entityDeltaEntry, hxid]
      by_cases heq : pE = nE
      · rw [if_pos heq]
        show optFieldsEqv (some pE) (some nE)
        rw [heq]
        exact fun f => rfl
      · rw [if_neg heq]
        by_cases hfd : computeFieldDelta pE nE = []
        · simp only [hfd, if_pos rfl]
          show optFieldsEqv (some pE) (some nE)
          exact fieldsEqv_of_computeFieldDelta_nil pE nE hfd
        · simp only [hfd, if_neg hfd, Option.map_some]
          show optFieldsEqv (some (updateEntityFields pE (computeFieldDelta pE nE)))
            (some nE)
          intro f
          have hpE : (keysOf pE).Nodup :=
            hx.2 (id, pE) (mem_of_alook_eq_some x id pE hxid)
          have hnE : (keysOf nE).Nodup :=
            hy.2 (id, nE) (mem_of_alook_eq_some y id nE hyid)
          have hfdn : (keysOf (computeFieldDelta pE nE)).Nodup :=
            computeFieldDelta_keys_nodup pE nE hpE hnE
          rw [alook_updateEntityFields _ _ _ hfdn]
          unfold computeFieldDelta
          rw [alook_append, alook_filter_nodup _ _ _ hnE,
            alook_filter_not_contains_map_const nE pE Val.vnull f]
          rcases hnf : alook nE f with _ | v
          · have hcf : containsK nE f = false := by simp [containsK, hnf]
            rcases hpf : alook pE f with _ | w
            · simp [hcf, hpf, applyFieldChange]
            · simp [hcf, hpf, applyFieldChange]
          · have hcf : containsK nE f = true := by simp [containsK, hnf]
            have hvn : ¬v = Val.vnull :=
              hnull (id, nE) (mem_of_alook_eq_some y id nE hyid) (f, v)
                (mem_of_alook_eq_some nE f v hnf)
            by_cases hch : alook pE f = some v
            · have hc1 : (decide (¬alook pE (f, v).1 = some (f, v).2)) = false := by
                simp [hch]
              simp [hc1, hcf, hch, applyFieldChange]
            · have hc1 : (decide (¬alook pE (f, v).1 = some (f, v).2)) = true := by
                simp [hch]
              simp [hc1, hcf, applyFieldChange_some_of_ne v hvn]

/-- C1 witness: a concrete round trip through the amended theorem. -/
theorem apply_compute_roundtrip_witness :
    EntitiesWF [("e", [("f", Val.vint 1)])] ∧
    EntitiesWF [("e", [("f", Val.vint 2)]), ("g", [("h", Val.vint 3)])] ∧
    NoNullFieldValues [("e", [("f", Val.vint 2)]), ("g", [("h", Val.vint 3)])] ∧
    entitiesEqv
      (applyDeltaToEntities [("e", [("f", Val.vint 1)])]
        (computeEntityDelta [("e", [("f", Val.vint 1)])]
          [("e", [("f", Val.vint 2)]), ("g", [("h", Val.vint 3)])]))
      [("e", [("f", Val.vint 2)]), ("g", [("h", Val.vint 3)])] :=
  ⟨by decide, by decide, by decide,
    apply_compute_roundtrip [("e", [("f", Val.vint 1)])]
      [("e", [("f", Val.vint 2)]), ("g", [("h", Val.vint 3)])]
      (by decide) (by decide) (by decide)⟩

theorem natToBytesBE_length (w n : Nat) : (natToBytesBE w n).length = w := by
  induction w generalizing n with
  | zero => rfl
  | succ w ih => simp [natToBytesBE, ih]

theorem natToBytesBE_lt (w n : Nat) : ∀ b ∈ natToBytesBE w n, b < 256 := by
  induction w generalizing n with
  | zero => simp [natToBytesBE]
  | succ w ih =>
    intro b hb
    simp only [natToBytesBE, List.mem_append, List.mem_singleton] at hb
    rcases hb with hb | hb
    · exact ih (n / 256) b hb
    · subst hb
      omega

theorem readBytes_exact (w : Nat) (bs rest : List Nat) (h : bs.length = w) :
    readBytes w (bs ++ rest) = some (bs, rest) := by
  induction bs generalizing w with
  | nil =>
    subst h
    rfl
  | cons b t ih =>
    subst h
    simp [readBytes, ih t.length rfl]

theorem beVal_natToBytesBE (w n : Nat) (h : n < 256 ^ w) :
    beVal (natToBytesBE w n) = n := by
  induction w generalizing n with
  | zero =>
    simp only [pow_zero, Nat.lt_one_iff] at h
    simp [h, natToBytesBE, beVal]
  | succ w ih =>
    have h2 : n / 256 < 256 ^ w := by
      rw [Nat.div_lt_iff_lt_mul (by norm_num)]
      calc n < 256 ^ (w + 1) := h
        _ = 256 ^ w * 256 := by ring
    have hfold : beVal (natToBytesBE w (n / 256) ++ [n % 256]) =
        beVal (natToBytesBE w (n / 256)) * 256 + n % 256 := by
      simp [beVal, List.foldl_append]
    simp only [natToBytesBE, hfold, ih _ h2]
    omega

theorem char_ofNat_toNat (c : Char) : Char.ofNat c.toNat = c := by
  have h : c.toNat.isValidChar := c.valid
  unfold Char.ofNat
  rw [dif_pos h]
  unfold Char.ofNatAux
  apply Char.ext
  apply UInt32.toNat.inj
  rfl

/-- Every character code point is below 0x110000. -/
theorem char_toNat_lt (c : Char) : c.toNat < 1114112 := by
  have hv : c.toNat < 55296 ∨ (57344 ≤ c.toNat ∧ c.toNat < 1114112) := c.valid
  omega

/-- A continuation byte in range yields its payload bits. -/
theorem utf8Cont_cont (c : Nat) (t : List Nat) (h1 : 128 ≤ c) (h2 : c < 192) :
    utf8Cont (c :: t) = some (c - 128, t) := by
  show (if 128 ≤ c ∧ c < 192 then some (c - 128, t) else none) = _
  rw [if_pos ⟨h1, h2⟩]

/-- utf8Dec consumes a one-byte (ASCII) character. -/
theorem utf8Dec_step1 (n b : Nat) (t : List Nat) (hb : b < 128) :
    utf8Dec (n + 1) (b :: t) =
      (utf8Dec n t).map fun p => (Char.ofNat b :: p.1, p.2) := by
  conv_lhs => unfold utf8Dec
  rw [if_pos hb]

/-- utf8Dec consumes a two-byte character. -/
theorem utf8Dec_step2 (n b c1 : Nat) (t : List Nat) (hb1 : 192 ≤ b)
    (hb2 : b < 224) (hc1 : 128 ≤ c1) (hc2 : c1 < 192) :
    utf8Dec (n + 1 + 1) (b :: c1 :: t) =
      (utf8Dec n t).map fun p =>
        (Char.ofNat ((b - 192) * 64 + (c1 - 128)) :: p.1, p.2) := by
  conv_lhs => unfold utf8Dec
  rw [if_neg (by omega), if_neg (by omega), if_pos hb2, if_pos (by omega),
    utf8Cont_cont c1 t hc1 hc2]
  simp only [Option.some_bind]
  rw [Nat.add_sub_cancel]

/-- utf8Dec consumes a three-byte character. -/
theorem utf8Dec_step3 (n b c1 c2 : Nat) (t : List Nat) (hb1 : 224 ≤ b)
    (hb2 : b < 240) (hc1 : 128 ≤ c1) (hc2 : c1 < 192) (hc3 : 128 ≤ c2)
    (hc4 : c2 < 192) :
    utf8Dec (n + 1 + 1 + 1) (b :: c1 :: c2 :: t) =
      (utf8Dec n t).map fun p =>
        (Char.ofNat ((b - 224) * 4096 + (c1 - 128) * 64 + (c2 - 128))
          :: p.1, p.2) := by
  conv_lhs => unfold utf8Dec
  rw [if_neg (by omega), if_neg (by omega), if_neg (by omega), if_pos hb2,
    if_pos (by omega), utf8Cont_cont c1 _ hc1 hc2]
  simp only [Option.some_bind]
  rw [utf8Cont_cont c2 _ hc3 hc4]
  simp only [Option.some_bind]
  rw [show n + 1 + 1 - 2 = n from by omega]

/-- utf8Dec consumes a four-byte character. -/
theorem utf8Dec_step4 (n b c1 c2 c3 : Nat) (t : List Nat) (hb1 : 240 ≤ b)
    (hb2 : b < 248) (hc1 : 128 ≤ c1) (hc2 : c1 < 192) (hc3 : 128 ≤ c2)
    (hc4 : c2 < 192) (hc5 : 128 ≤ c3) (hc6 : c3 < 192) :
    utf8Dec (n + 1 + 1 + 1 + 1) (b :: c1 :: c2 :: c3 :: t) =
      (utf8Dec n t).map fun p =>
        (Char.ofNat ((b - 240) * 262144 + (c1 - 128) * 4096 +
          (c2 - 128) * 64 + (c3 - 128)) :: p.1, p.2) := by
  conv_lhs => unfold utf8Dec
  rw [if_neg (by omega), if_neg (by omega), if_neg (by omega),
    if_neg (by omega), if_pos hb2, if_pos (by omega),
    utf8Cont_cont c1 _ hc1 hc2]
  simp only [Option.some_bind]
  rw [utf8Cont_cont c2 _ hc3 hc4]
  simp only [Option.some_bind]
  rw [utf8Cont_cont c3 _ hc5 hc6]
  simp only [Option.some_bind]
  rw [show n + 1 + 1 + 1 - 3 = n from by omega]

/-- Decoding the UTF-8 bytes of a character list gives the list back. -/
theorem utf8Dec_strBytesAux : ∀ (cs : List Char) (rest : List Nat),
    utf8Dec (strBytesAux cs).length (strBytesAux cs ++ rest) = some (cs, rest)
  | [], rest => by
    show utf8Dec 0 rest = some ([], rest)
    unfold utf8Dec
    rfl
  | c :: cs, rest => by
    have hv : c.toNat < 1114112 := char_toNat_lt c
    by_cases h1 : c.toNat < 128
    · have hsb : strBytesAux (c :: cs) = c.toNat :: strBytesAux cs := by
        show utf8EncChar c ++ strBytesAux cs = _
        unfold utf8EncChar
        rw [if_pos h1]
        rfl
      rw [hsb]
      show utf8Dec ((strBytesAux cs).length + 1)
        (c.toNat :: (strBytesAux cs ++ rest)) = some (c :: cs, rest)
      rw [utf8Dec_step1 _ _ _ h1, utf8Dec_strBytesAux cs rest]
      show some (Char.ofNat c.toNat :: cs, rest) = _
      rw [char_ofNat_toNat]
    · by_cases h2 : c.toNat < 2048
      · have hsb : strBytesAux (c :: cs) = (192 + c.toNat / 64) ::
            ((128 + c.toNat % 64) :: strBytesAux cs) := by
          show utf8EncChar c ++ strBytesAux cs = _
          unfold utf8EncChar
          rw [if_neg h1, if_pos h2]
          rfl
        rw [hsb]
        show utf8Dec ((strBytesAux cs).length + 1 + 1)
          ((192 + c.toNat / 64) :: ((128 + c.toNat % 64) ::
            (strBytesAux cs ++ rest))) = some (c :: cs, rest)
        rw [utf8Dec_step2 _ _ _ _ (by omega) (by omega) (by omega) (by omega),
          utf8Dec_strBytesAux cs rest]
        show some (Char.ofNat ((192 + c.toNat / 64 - 192) * 64 +
          (128 + c.toNat % 64 - 128)) :: cs, rest) = _
        rw [show (192 + c.toNat / 64 - 192) * 64 + (128 + c.toNat % 64 - 128)
          = c.toNat from by omega, char_ofNat_toNat]
      · by_cases h3 : c.toNat < 65536
        · have hsb : strBytesAux (c :: cs) = (224 + c.toNat / 4096) ::
              ((128 + c.toNat / 64 % 64) :: ((128 + c.toNat % 64) ::
                strBytesAux cs)) := by
            show utf8EncChar c ++ strBytesAux cs = _
            unfold utf8EncChar
            rw [if_neg h1, if_neg h2, if_pos h3]
            rfl
          rw [hsb]
          show utf8Dec ((strBytesAux cs).length + 1 + 1 + 1)
            ((224 + c.toNat / 4096) :: ((128 + c.toNat / 64 % 64) ::
              ((128 + c.toNat % 64) :: (strBytesAux cs ++ rest)))) =
            some (c :: cs, rest)
          rw [utf8Dec_step3 _ _ _ _ _ (by omega) (by omega) (by omega)
            (by omega) (by omega) (by omega), utf8Dec_strBytesAux cs rest]
          show some (Char.ofNat ((224 + c.toNat / 4096 - 224) * 4096 +
            (128 + c.toNat / 64 % 64 - 128) * 64 +
            (128 + c.toNat % 64 - 128)) :: cs, rest) = _
          rw [show (224 + c.toNat / 4096 - 224) * 4096 +
            (128 + c.toNat / 64 % 64 - 128) * 64 +
            (128 + c.toNat % 64 - 128) = c.toNat from by omega, char_ofNat_toNat]
        · have hsb : strBytesAux (c :: cs) = (240 + c.toNat / 262144) ::
              ((128 + c.toNat / 4096 % 64) :: ((128 + c.toNat / 64 % 64) ::
                ((128 + c.toNat % 64) :: strBytesAux cs))) := by
            show utf8EncChar c ++ strBytesAux cs = _
            unfold utf8EncChar
            rw [if_neg h1, if_neg h2, if_neg h3]
            rfl
          rw [hsb]
          show utf8Dec ((strBytesAux cs).length + 1 + 1 + 1 + 1)
            ((240 + c.toNat / 262144) :: ((128 + c.toNat / 4096 % 64) ::
              ((128 + c.toNat / 64 % 64) :: ((128 + c.toNat % 64) ::
                (strBytesAux cs ++ rest))))) = some (c :: cs, rest)
          rw [utf8Dec_step4 _ _ _ _ _ _ (by omega) (by omega) (by omega)
            (by omega) (by omega) (by omega) (by omega) (by omega),
            utf8Dec_strBytesAux cs rest]
          show some (Char.ofNat ((240 + c.toNat / 262144 - 240) * 262144 +
            (128 + c.toNat / 4096 % 64 - 128) * 4096 +
            (128 + c.toNat / 64 % 64 - 128) * 64 +
            (128 + c.toNat % 64 - 128)) :: cs, rest) = _
          rw [show (240 + c.toNat / 262144 - 240) * 262144 +
            (128 + c.toNat / 4096 % 64 - 128) * 4096 +
            (128 + c.toNat / 64 % 64 - 128) * 64 +
            (128 + c.toNat % 64 - 128) = c.toNat from by omega, char_ofNat_toNat]

/-- Decoding the UTF-8 bytes of a string gives the string back. -/
theorem decodeStrBytes_strBytes (s : String) (rest : List Nat) :
    decodeStrBytes (strBytes s).length (strBytes s ++ rest) = some (s, rest) := by
  unfold decodeStrBytes strBytes
  rw [utf8Dec_strBytesAux]
  rfl

/-- UTF-8 bytes of a character are bytes. -/
theorem utf8EncChar_lt (c : Char) : ∀ b ∈ utf8EncChar c, b < 256 := by
  have hv : c.toNat < 1114112 := char_toNat_lt c
  unfold utf8EncChar
  intro b hb
  by_cases h1 : c.toNat < 128
  · rw [if_pos h1] at hb
    simp only [List.mem_singleton] at hb
    omega
  · rw [if_neg h1] at hb
    by_cases h2 : c.toNat < 2048
    · rw [if_pos h2] at hb
      simp only [List.mem_cons, List.not_mem_nil, or_false] at hb
      rcases hb with rfl | rfl <;> omega
    · rw [if_neg h2] at hb
      by_cases h3 : c.toNat < 65536
      · rw [if_pos h3] at hb
        simp only [List.mem_cons, List.not_mem_nil, or_false] at hb
        rcases hb with rfl | rfl | rfl <;> omega
      · rw [if_neg h3] at hb
        simp only [List.mem_cons, List.not_mem_nil, or_false] at hb
        rcases hb with rfl | rfl | rfl | rfl <;> omega

/-- UTF-8 bytes of a character list are bytes. -/
theorem strBytesAux_lt : ∀ (cs : List Char), ∀ b ∈ strBytesAux cs, b < 256
  | [] => by simp [strBytesAux]
  | c :: cs => by
    intro b hb
    simp only [strBytesAux, List.mem_append] at hb
    rcases hb with hb | hb
    · exact utf8EncChar_lt c b hb
    · exact strBytesAux_lt cs b hb

/-- UTF-8 bytes of a string are bytes. -/
theorem strBytes_lt (s : String) : ∀ b ∈ strBytes s, b < 256 :=
  strBytesAux_lt s.data

/-- Decoding an encoded string gives the string back. -/
theorem decodeStr_encStr (s : String) (rest : List Nat) (h : strWF s = true) :
    decodeStr (encStr s ++ rest) = some (s, rest) := by
  have hlen : (strBytes s).length < 4294967296 := by
    simp only [strWF, decide_eq_true_eq] at h
    exact h
  unfold encStr
  by_cases h32 : (strBytes s).length < 32
  · rw [if_pos h32]
    show decodeStr ((160 + (strBytes s).length) :: (strBytes s ++ rest)) = _
    simp only [decodeStr]
    rw [if_pos (by omega)]
    have he : 160 + (strBytes s).length - 160 = (strBytes s).length := by omega
    rw [he, decodeStrBytes_strBytes]
  · rw [if_neg h32]
    by_cases h256 : (strBytes s).length < 256
    · rw [if_pos h256]
      show decodeStr (0xd9 :: ((strBytes s).length :: (strBytes s ++ rest))) = _
      simp only [decodeStr]
      rw [if_neg (by omega), if_pos trivial]
      exact decodeStrBytes_strBytes s rest
    · rw [if_neg h256]
      by_cases h65 : (strBytes s).length < 65536
      · rw [if_pos h65]
        show decodeStr (0xda :: (natToBytesBE 2 (strBytes s).length ++
          (strBytes s ++ rest))) = _
        simp only [decodeStr]
        rw [if_neg (by omega), if_neg (by omega), if_pos trivial,
          readBytes_exact 2 _ _ (natToBytesBE_length 2 _)]
        show decodeStrBytes (beVal (natToBytesBE 2 (strBytes s).length))
          (strBytes s ++ rest) = some (s, rest)
        rw [beVal_natToBytesBE 2 _ (by norm_num; omega)]
        exact decodeStrBytes_strBytes s rest
      · rw [if_neg h65]
        show decodeStr (0xdb :: (natToBytesBE 4 (strBytes s).length ++
          (strBytes s ++ rest))) = _
        simp only [decodeStr]
        rw [if_neg (by omega), if_neg (by omega), if_neg (by omega),
          if_pos trivial, readBytes_exact 4 _ _ (natToBytesBE_length 4 _)]
        show decodeStrBytes (beVal (natToBytesBE 4 (strBytes s).length))
          (strBytes s ++ rest) = some (s, rest)
        rw [beVal_natToBytesBE 4 _ (by norm_num; omega)]
        exact decodeStrBytes_strBytes s rest

/-- Exponent and fraction bounds for the float64 word of an integer. -/
theorem encFloat64_word_facts (n : Int) (h0 : ¬n.natAbs = 0)
    (hlt : n.natAbs < 9007199254740992) :
    Nat.log2 n.natAbs ≤ 52 ∧
    (n.natAbs - 2 ^ Nat.log2 n.natAbs) * 2 ^ (52 - Nat.log2 n.natAbs)
      < 4503599627370496 := by
  have hle : 2 ^ Nat.log2 n.natAbs ≤ n.natAbs := by
    rw [Nat.log2_eq_log_two]
    exact Nat.pow_log_le_self 2 h0
  have hlt2 : n.natAbs < 2 ^ (Nat.log2 n.natAbs + 1) := by
    rw [Nat.log2_eq_log_two]
    exact Nat.lt_pow_succ_log_self (by norm_num) _
  have h52 : Nat.log2 n.natAbs ≤ 52 := by
    rw [Nat.log2_eq_log_two]
    have hp : n.natAbs < 2 ^ 53 := by
      rw [show (2:Nat) ^ 53 = 9007199254740992 from by norm_num]
      exact hlt
    have := Nat.log_lt_of_lt_pow h0 hp
    omega
  refine ⟨h52, ?_⟩
  have hpow : (2 : Nat) ^ Nat.log2 n.natAbs * 2 ^ (52 - Nat.log2 n.natAbs)
      = 4503599627370496 := by
    rw [← pow_add, show Nat.log2 n.natAbs + (52 - Nat.log2 n.natAbs) = 52 from
      by omega]
    norm_num
  have hml : n.natAbs - 2 ^ Nat.log2 n.natAbs < 2 ^ Nat.log2 n.natAbs := by
    have hd : (2:Nat) ^ (Nat.log2 n.natAbs + 1) = 2 ^ Nat.log2 n.natAbs * 2 := by
      rw [pow_succ]
    omega
  calc (n.natAbs - 2 ^ Nat.log2 n.natAbs) * 2 ^ (52 - Nat.log2 n.natAbs)
      < 2 ^ Nat.log2 n.natAbs * 2 ^ (52 - Nat.log2 n.natAbs) :=
        mul_lt_mul_of_pos_right hml (pow_pos (by norm_num) _)
    _ = 4503599627370496 := hpow

/-- Reading the IEEE 754 word of a nonzero integer with |n| below 2^53
gives the integer back. -/
theorem decodeFloat64_encFloat64_word (n : Int) (h0 : ¬n.natAbs = 0)
    (hlt : n.natAbs < 9007199254740992) :
    decodeFloat64 ((if n < 0 then 1 else 0) * 2 ^ 63 +
      (Nat.log2 n.natAbs + 1023) * 2 ^ 52 +
      (n.natAbs - 2 ^ Nat.log2 n.natAbs) * 2 ^ (52 - Nat.log2 n.natAbs)) =
      some n := by
  obtain ⟨h52, hfr⟩ := encFloat64_word_facts n h0 hlt
  have hle : 2 ^ Nat.log2 n.natAbs ≤ n.natAbs := by
    rw [Nat.log2_eq_log_two]
    exact Nat.pow_log_le_self 2 h0
  set e := Nat.log2 n.natAbs with he
  set F := (n.natAbs - 2 ^ e) * 2 ^ (52 - e) with hF
  set sgn := (if n < 0 then (1:Nat) else 0) with hs
  have hsgn : sgn ≤ 1 := by rw [hs]; split <;> omega
  set W := sgn * 2 ^ 63 + (e + 1023) * 2 ^ 52 + F with hW
  have hWnum : W = sgn * 9223372036854775808 +
      (e + 1023) * 4503599627370496 + F := by
    rw [hW, show (2:Nat) ^ 63 = 9223372036854775808 from by norm_num,
      show (2:Nat) ^ 52 = 4503599627370496 from by norm_num]
  have hE : W / 2 ^ 52 % 2 ^ 11 = e + 1023 := by
    rw [hWnum, show (2:Nat) ^ 52 = 4503599627370496 from by norm_num,
      show (2:Nat) ^ 11 = 2048 from by norm_num]
    omega
  have hFr : W % 2 ^ 52 = F := by
    rw [hWnum, show (2:Nat) ^ 52 = 4503599627370496 from by norm_num]
    omega
  have hS : W / 2 ^ 63 = sgn := by
    rw [hWnum, show (2:Nat) ^ 63 = 9223372036854775808 from by norm_num]
    omega
  unfold decodeFloat64
  rw [hE, hFr, hS]
  rw [if_neg (by omega), if_neg (by omega), if_neg (by omega),
    if_pos (by omega)]
  rw [show 1075 - (e + 1023) = 52 - e from by omega]
  rw [hF, Nat.mul_mod_left, if_pos rfl]
  have hm : (2:Nat) ^ 52 + (n.natAbs - 2 ^ e) * 2 ^ (52 - e) =
      n.natAbs * 2 ^ (52 - e) := by
    have hpow : (2 : Nat) ^ e * 2 ^ (52 - e) = 2 ^ 52 := by
      rw [← pow_add, show e + (52 - e) = 52 from by omega]
    calc (2:Nat) ^ 52 + (n.natAbs - 2 ^ e) * 2 ^ (52 - e)
        = 2 ^ e * 2 ^ (52 - e) + (n.natAbs - 2 ^ e) * 2 ^ (52 - e) := by
          rw [hpow]
      _ = (2 ^ e + (n.natAbs - 2 ^ e)) * 2 ^ (52 - e) := by ring
      _ = n.natAbs * 2 ^ (52 - e) := by
          rw [show (2:Nat) ^ e + (n.natAbs - 2 ^ e) = n.natAbs from by omega]
  rw [hm, Nat.mul_div_cancel _ (pow_pos (by norm_num) _)]
  rw [hs]
  by_cases hn : n < 0
  · rw [if_pos hn]
    show some (if (1:Nat) = 1 then -(n.natAbs : Int) else (n.natAbs : Int)) =
      some n
    rw [if_pos rfl]
    congr 1
    omega
  · rw [if_neg hn]
    show some (if (0:Nat) = 1 then -(n.natAbs : Int) else (n.natAbs : Int)) =
      some n
    rw [if_neg (by omega)]
    congr 1
    omega

/-- Decoding a float64-encoded integer gives the integer back. -/
theorem decodeVal_encFloat64 (n : Int) (f : Nat) (rest : List Nat)
    (h0 : ¬n = 0) (hlt : n.natAbs < 9007199254740992) :
    decodeVal (f + 1) (encFloat64 n ++ rest) = some (.vint n, rest) := by
  have h0' : ¬n.natAbs = 0 := by omega
  obtain ⟨h52, hfr⟩ := encFloat64_word_facts n h0' hlt
  have hsgn : (if n < 0 then (1:Nat) else 0) ≤ 1 := by split <;> omega
  have hWlt : (if n < 0 then (1:Nat) else 0) * 2 ^ 63 +
      (Nat.log2 n.natAbs + 1023) * 2 ^ 52 +
      (n.natAbs - 2 ^ Nat.log2 n.natAbs) * 2 ^ (52 - Nat.log2 n.natAbs)
      < 256 ^ 8 := by
    rw [show (2:Nat) ^ 63 = 9223372036854775808 from by norm_num,
      show (2:Nat) ^ 52 = 4503599627370496 from by norm_num,
      show (256:Nat) ^ 8 = 18446744073709551616 from by norm_num]
    omega
  unfold encFloat64
  rw [List.cons_append]
  unfold decodeVal
  rw [if_neg (by norm_num), if_neg (by norm_num), if_neg (by norm_num),
    if_neg (by norm_num), if_neg (by norm_num), if_neg (by norm_num),
    if_neg (by norm_num), if_pos rfl,
    readBytes_exact 8 _ _ (natToBytesBE_length 8 _)]
  simp only [Option.some_bind]
  rw [beVal_natToBytesBE 8 _ hWlt, decodeFloat64_encFloat64_word n h0' hlt]
  rfl

/-- Decoding an encoded integer gives the integer back, for every integer
a JS number represents exactly. -/
theorem decodeVal_encInt (n : Int) (f : Nat) (rest : List Nat)
    (h1 : -9007199254740992 < n) (h2 : n < 9007199254740992) :
    decodeVal (f + 1) (encInt n ++ rest) = some (.vint n, rest) := by
  unfold encInt
  by_cases h32 : -2147483648 ≤ n ∧ n < 2147483648
  · rw [if_pos h32]
    by_cases h0 : 0 ≤ n
    · have hcast : (n.toNat : Int) = n := Int.toNat_of_nonneg h0
      rw [if_pos h0]
      by_cases ha : n.toNat < 128
      · rw [if_pos ha]
        show decodeVal (f + 1) (n.toNat :: rest) = _
        unfold decodeVal
        rw [if_pos ha, hcast]
      · rw [if_neg ha]
        by_cases hb : n.toNat < 256
        · rw [if_pos hb]
          show decodeVal (f + 1) (204 :: (n.toNat :: rest)) = _
          unfold decodeVal
          rw [if_neg (by norm_num), if_neg (by norm_num), if_neg (by norm_num),
            if_neg (by norm_num), if_neg (by norm_num), if_neg (by norm_num),
            if_neg (by norm_num), if_neg (by norm_num), if_pos rfl]
          show some (Val.vint (n.toNat : Int), rest) = _
          rw [hcast]
        · rw [if_neg hb]
          by_cases hc : n.toNat < 65536
          · rw [if_pos hc]
            show decodeVal (f + 1) (205 :: (natToBytesBE 2 n.toNat ++ rest)) = _
            unfold decodeVal
            rw [if_neg (by norm_num), if_neg (by norm_num), if_neg (by norm_num),
              if_neg (by norm_num), if_neg (by norm_num), if_neg (by norm_num),
              if_neg (by norm_num), if_neg (by norm_num), if_neg (by norm_num),
              if_pos rfl, readBytes_exact 2 _ _ (natToBytesBE_length 2 _)]
            show some (Val.vint (beVal (natToBytesBE 2 n.toNat) : Int), rest) = _
            rw [beVal_natToBytesBE 2 _ (by norm_num; omega), hcast]
          · rw [if_neg hc]
            show decodeVal (f + 1) (206 :: (natToBytesBE 4 n.toNat ++ rest)) = _
            unfold decodeVal
            rw [if_neg (by norm_num), if_neg (by norm_num), if_neg (by norm_num),
              if_neg (by norm_num), if_neg (by norm_num), if_neg (by norm_num),
              if_neg (by norm_num), if_neg (by norm_num), if_neg (by norm_num),
              if_neg (by norm_num), if_pos rfl,
              readBytes_exact 4 _ _ (natToBytesBE_length 4 _)]
            show some (Val.vint (beVal (natToBytesBE 4 n.toNat) : Int), rest) = _
            rw [beVal_natToBytesBE 4 _ (by norm_num; omega), hcast]
    · rw [if_neg h0]
      by_cases ha : -32 ≤ n
      · rw [if_pos ha]
        show decodeVal (f + 1) ((256 + n).toNat :: rest) = _
        unfold decodeVal
        have c1 : ¬(256 + n).toNat < 128 := by omega
        have c2 : ¬(256 + n).toNat < 144 := by omega
        have c3 : ¬(256 + n).toNat < 160 := by omega
        have c4 : ¬(256 + n).toNat < 192 := by omega
        have c5 : ¬(256 + n).toNat = 192 := by omega
        have c6 : ¬(256 + n).toNat = 194 := by omega
        have c7 : ¬(256 + n).toNat = 195 := by omega
        have c8 : ¬(256 + n).toNat = 203 := by omega
        have c9 : ¬(256 + n).toNat = 204 := by omega
        have c10 : ¬(256 + n).toNat = 205 := by omega
        have c11 : ¬(256 + n).toNat = 206 := by omega
        have c12 : ¬(256 + n).toNat = 208 := by omega
        have c13 : ¬(256 + n).toNat = 209 := by omega
        have c14 : ¬(256 + n).toNat = 210 := by omega
        have c15 : ¬(256 + n).toNat = 217 := by omega
        have c16 : ¬(256 + n).toNat = 218 := by omega
        have c17 : ¬(256 + n).toNat = 219 := by omega
        have c18 : ¬(256 + n).toNat = 222 := by omega
        have c19 : ¬(256 + n).toNat = 223 := by omega
        have c20 : 224 ≤ (256 + n).toNat := by omega
        rw [if_neg c1, if_neg c2, if_neg c3, if_neg c4, if_neg c5, if_neg c6,
          if_neg c7, if_neg c8, if_neg c9, if_neg c10, if_neg c11, if_neg c12,
          if_neg c13, if_neg c14, if_neg c15, if_neg c16, if_neg c17,
          if_neg c18, if_neg c19, if_pos c20]
        rw [show ((256 + n).toNat : Int) - 256 = n from by omega]
      · rw [if_neg ha]
        by_cases hb : -128 ≤ n
        · rw [if_pos hb]
          show decodeVal (f + 1) (208 :: ((256 + n).toNat :: rest)) = _
          unfold decodeVal
          rw [if_neg (by norm_num), if_neg (by norm_num), if_neg (by norm_num),
            if_neg (by norm_num), if_neg (by norm_num), if_neg (by norm_num),
            if_neg (by norm_num), if_neg (by norm_num), if_neg (by norm_num),
            if_neg (by norm_num), if_neg (by norm_num), if_pos rfl]
          show some (Val.vint (if (256 + n).toNat < 128 then ((256 + n).toNat : Int)
            else ((256 + n).toNat : Int) - 256), rest) = _
          rw [if_neg (by omega)]
          have he : ((256 + n).toNat : Int) - 256 = n := by omega
          rw [he]
        · rw [if_neg hb]
          by_cases hc : -32768 ≤ n
          · rw [if_pos hc]
            show decodeVal (f + 1)
              (209 :: (natToBytesBE 2 (65536 + n).toNat ++ rest)) = _
            unfold decodeVal
            rw [if_neg (by norm_num), if_neg (by norm_num), if_neg (by norm_num),
              if_neg (by norm_num), if_neg (by norm_num), if_neg (by norm_num),
              if_neg (by norm_num), if_neg (by norm_num), if_neg (by norm_num),
              if_neg (by norm_num), if_neg (by norm_num), if_neg (by norm_num),
              if_pos rfl, readBytes_exact 2 _ _ (natToBytesBE_length 2 _)]
            show some (Val.vint
              (if beVal (natToBytesBE 2 (65536 + n).toNat) < 32768
              then (beVal (natToBytesBE 2 (65536 + n).toNat) : Int)
              else (beVal (natToBytesBE 2 (65536 + n).toNat) : Int) - 65536),
              rest) = _
            rw [beVal_natToBytesBE 2 _ (by norm_num; omega), if_neg (by omega)]
            have he : (((65536 : Int) + n).toNat : Int) - 65536 = n := by omega
            rw [he]
          · rw [if_neg hc]
            show decodeVal (f + 1)
              (210 :: (natToBytesBE 4 (4294967296 + n).toNat ++ rest)) = _
            unfold decodeVal
            rw [if_neg (by norm_num), if_neg (by norm_num), if_neg (by norm_num),
              if_neg (by norm_num), if_neg (by norm_num), if_neg (by norm_num),
              if_neg (by norm_num), if_neg (by norm_num), if_neg (by norm_num),
              if_neg (by norm_num), if_neg (by norm_num), if_neg (by norm_num),
              if_neg (by norm_num), if_pos rfl,
              readBytes_exact 4 _ _ (natToBytesBE_length 4 _)]
            show some (Val.vint
              (if beVal (natToBytesBE 4 (4294967296 + n).toNat) < 2147483648
              then (beVal (natToBytesBE 4 (4294967296 + n).toNat) : Int)
              else (beVal (natToBytesBE 4 (4294967296 + n).toNat) : Int) -
                4294967296), rest) = _
            rw [beVal_natToBytesBE 4 _ (by norm_num; omega), if_neg (by omega)]
            have he : (((4294967296 : Int) + n).toNat : Int) - 4294967296 = n := by
              omega
            rw [he]
  · rw [if_neg h32]
    exact decodeVal_encFloat64 n f rest (by omega) (by omega)

/-- Decoding an encoded string value gives the string back. -/
theorem decodeVal_encStr (s : String) (f : Nat) (rest : List Nat)
    (h : strWF s = true) :
    decodeVal (f + 1) (encStr s ++ rest) = some (.vstr s, rest) := by
  have hlen : (strBytes s).length < 4294967296 := by
    simp only [strWF, decide_eq_true_eq] at h
    exact h
  unfold encStr
  by_cases h32 : (strBytes s).length < 32
  · rw [if_pos h32]
    show decodeVal (f + 1)
      ((160 + (strBytes s).length) :: (strBytes s ++ rest)) = _
    unfold decodeVal
    rw [if_neg (by omega), if_neg (by omega), if_neg (by omega),
      if_pos (by omega)]
    have he : 160 + (strBytes s).length - 160 = (strBytes s).length := by omega
    rw [he, decodeStrBytes_strBytes]
    rfl
  · rw [if_neg h32]
    by_cases h256 : (strBytes s).length < 256
    · rw [if_pos h256]
      show decodeVal (f + 1)
        (217 :: ((strBytes s).length :: (strBytes s ++ rest))) = _
      unfold decodeVal
      rw [if_neg (by norm_num), if_neg (by norm_num), if_neg (by norm_num),
        if_neg (by norm_num), if_neg (by norm_num), if_neg (by norm_num),
        if_neg (by norm_num), if_neg (by norm_num), if_neg (by norm_num),
        if_neg (by norm_num), if_neg (by norm_num), if_neg (by norm_num),
        if_neg (by norm_num), if_neg (by norm_num), if_pos rfl]
      show (decodeStrBytes (strBytes s).length (strBytes s ++ rest)).map
        (fun p => (Val.vstr p.1, p.2)) = _
      rw [decodeStrBytes_strBytes]
      rfl
    · rw [if_neg h256]
      by_cases h65 : (strBytes s).length < 65536
      · rw [if_pos h65]
        show decodeVal (f + 1)
          (218 :: (natToBytesBE 2 (strBytes s).length ++ (strBytes s ++ rest))) = _
        unfold decodeVal
        rw [if_neg (by norm_num), if_neg (by norm_num), if_neg (by norm_num),
          if_neg (by norm_num), if_neg (by norm_num), if_neg (by norm_num),
          if_neg (by norm_num), if_neg (by norm_num), if_neg (by norm_num),
          if_neg (by norm_num), if_neg (by norm_num), if_neg (by norm_num),
          if_neg (by norm_num), if_neg (by norm_num), if_neg (by norm_num),
          if_pos rfl, readBytes_exact 2 _ _ (natToBytesBE_length 2 _)]
        show (decodeStrBytes (beVal (natToBytesBE 2 (strBytes s).length))
          (strBytes s ++ rest)).map (fun q => (Val.vstr q.1, q.2)) = _
        rw [beVal_natToBytesBE 2 _ (by norm_num; omega), decodeStrBytes_strBytes]
        rfl
      · rw [if_neg h65]
        show decodeVal (f + 1)
          (219 :: (natToBytesBE 4 (strBytes s).length ++ (strBytes s ++ rest))) = _
        unfold decodeVal
        rw [if_neg (by norm_num), if_neg (by norm_num), if_neg (by norm_num),
          if_neg (by norm_num), if_neg (by norm_num), if_neg (by norm_num),
          if_neg (by norm_num), if_neg (by norm_num), if_neg (by norm_num),
          if_neg (by norm_num), if_neg (by norm_num), if_neg (by norm_num),
          if_neg (by norm_num), if_neg (by norm_num), if_neg (by norm_num),
          if_neg (by norm_num), if_pos rfl,
          readBytes_exact 4 _ _ (natToBytesBE_length 4 _)]
        show (decodeStrBytes (beVal (natToBytesBE 4 (strBytes s).length))
          (strBytes s ++ rest)).map (fun q => (Val.vstr q.1, q.2)) = _
        rw [beVal_natToBytesBE 4 _ (by norm_num; omega), decodeStrBytes_strBytes]
        rfl

/-- float64 encoding produces bytes. -/
theorem encFloat64_bytes_lt (n : Int) : ∀ b ∈ encFloat64 n, b < 256 := by
  unfold encFloat64
  intro b hb
  rcases List.mem_cons.mp hb with h | h
  · omega
  · exact natToBytesBE_lt 8 _ b h

/-- Integer encoding produces bytes. -/
theorem encInt_bytes_lt (n : Int) : ∀ b ∈ encInt n, b < 256 := by
  unfold encInt
  intro b hb
  by_cases h32 : -2147483648 ≤ n ∧ n < 2147483648
  · rw [if_pos h32] at hb
    by_cases h0 : 0 ≤ n
    · rw [if_pos h0] at hb
      by_cases ha : n.toNat < 128
      · rw [if_pos ha] at hb
        have := List.mem_singleton.mp hb
        omega
      · rw [if_neg ha] at hb
        by_cases hbb : n.toNat < 256
        · rw [if_pos hbb] at hb
          rcases List.mem_cons.mp hb with h | h
          · omega
          · have := List.mem_singleton.mp h
            omega
        · rw [if_neg hbb] at hb
          by_cases hc : n.toNat < 65536
          · rw [if_pos hc] at hb
            rcases List.mem_cons.mp hb with h | h
            · omega
            · exact natToBytesBE_lt 2 _ b h
          · rw [if_neg hc] at hb
            rcases List.mem_cons.mp hb with h | h
            · omega
            · exact natToBytesBE_lt 4 _ b h
    · rw [if_neg h0] at hb
      by_cases ha : -32 ≤ n
      · rw [if_pos ha] at hb
        have := List.mem_singleton.mp hb
        omega
      · rw [if_neg ha] at hb
        by_cases hbb : -128 ≤ n
        · rw [if_pos hbb] at hb
          rcases List.mem_cons.mp hb with h | h
          · omega
          · have := List.mem_singleton.mp h
            omega
        · rw [if_neg hbb] at hb
          by_cases hc : -32768 ≤ n
          · rw [if_pos hc] at hb
            rcases List.mem_cons.mp hb with h | h
            · omega
            · exact natToBytesBE_lt 2 _ b h
          · rw [if_neg hc] at hb
            rcases List.mem_cons.mp hb with h | h
            · omega
            · exact natToBytesBE_lt 4 _ b h
  · rw [if_neg h32] at hb
    exact encFloat64_bytes_lt n b hb

/-- String encoding produces bytes. -/
theorem encStr_bytes_lt (s : String) : ∀ b ∈ encStr s, b < 256 := by
  unfold encStr
  intro b hb
  by_cases h32 : (strBytes s).length < 32
  · rw [if_pos h32] at hb
    rcases List.mem_cons.mp hb with h2 | h2
    · omega
    · exact strBytes_lt s b h2
  · rw [if_neg h32] at hb
    by_cases h256 : (strBytes s).length < 256
    · rw [if_pos h256] at hb
      rcases List.mem_cons.mp hb with h2 | h2
      · omega
      rcases List.mem_cons.mp h2 with h3 | h3
      · omega
      · exact strBytes_lt s b h3
    · rw [if_neg h256] at hb
      by_cases h65 : (strBytes s).length < 65536
      · rw [if_pos h65] at hb
        rcases List.mem_cons.mp hb with h2 | h2
        · omega
        rcases List.mem_append.mp h2 with h3 | h3
        · exact natToBytesBE_lt 2 _ b h3
        · exact strBytes_lt s b h3
      · rw [if_neg h65] at hb
        rcases List.mem_cons.mp hb with h2 | h2
        · omega
        rcases List.mem_append.mp h2 with h3 | h3
        · exact natToBytesBE_lt 4 _ b h3
        · exact strBytes_lt s b h3

/-- Map headers are bytes. -/
theorem encMapHeader_bytes_lt (n : Nat) : ∀ b ∈ encMapHeader n, b < 256 := by
  unfold encMapHeader
  intro b hb
  by_cases h : n < 16
  · rw [if_pos h] at hb
    have := List.mem_singleton.mp hb
    omega
  · rw [if_neg h] at hb
    by_cases h65 : n < 65536
    · rw [if_pos h65] at hb
      rcases List.mem_cons.mp hb with h2 | h2
      · omega
      · exact natToBytesBE_lt 2 _ b h2
    · rw [if_neg h65] at hb
      rcases List.mem_cons.mp hb with h2 | h2
      · omega
      · exact natToBytesBE_lt 4 _ b h2

/-- A map header is nonempty. -/
theorem encMapHeader_length_pos (n : Nat) : 1 ≤ (encMapHeader n).length := by
  unfold encMapHeader
  by_cases h : n < 16
  · simp [h]
  · by_cases h65 : n < 65536 <;> simp [h, h65]

mutual

theorem encVal_bytes_lt : ∀ (v : Val), ∀ b ∈ encVal v, b < 256
  | .vnull, b, hb => by
    simp only [encVal, List.mem_singleton] at hb
    omega
  | .vbool bb, b, hb => by
    cases bb <;> simp only [encVal, List.mem_singleton] at hb <;> omega
  | .vint n, b, hb => encInt_bytes_lt n b hb
  | .vstr s, b, hb => encStr_bytes_lt s b hb
  | .vobj fs, b, hb => by
    simp only [encVal, List.mem_append] at hb
    rcases hb with hb | hb
    · exact encMapHeader_bytes_lt fs.length b hb
    · exact encFields_bytes_lt fs b hb

theorem encFields_bytes_lt : ∀ (fs : List (String × Val)),
    ∀ b ∈ encFields fs, b < 256
  | [], b, hb => by simp [encFields] at hb
  | (k, v) :: t, b, hb => by
    simp only [encFields, List.append_assoc, List.mem_append] at hb
    rcases hb with hb | hb | hb
    · exact encStr_bytes_lt k b hb
    · exact encVal_bytes_lt v b hb
    · exact encFields_bytes_lt t b hb

end

mutual

theorem depthV_le_encVal : ∀ (v : Val), depthV v ≤ (encVal v).length
  | .vnull => by simp [depthV, encVal]
  | .vbool bb => by cases bb <;> simp [depthV, encVal]
  | .vint n => by simp [depthV]
  | .vstr s => by simp [depthV]
  | .vobj fs => by
    have ih := depthF_le_encFields fs
    have hh := encMapHeader_length_pos fs.length
    simp only [depthV, encVal, List.length_append]
    omega

theorem depthF_le_encFields : ∀ (fs : List (String × Val)),
    depthF fs ≤ (encFields fs).length
  | [] => by simp [depthF, encFields]
  | (k, v) :: t => by
    have ih1 := depthV_le_encVal v
    have ih2 := depthF_le_encFields t
    simp only [depthF, encFields, List.append_assoc, List.length_append]
    omega

end

mutual

theorem decodeVal_encVal : ∀ (v : Val) (f : Nat) (rest : List Nat),
    valWF v = true → depthV v ≤ f →
    decodeVal (f + 1) (encVal v ++ rest) = some (v, rest)
  | .vnull, f, rest, _, _ => by
    show decodeVal (f + 1) (192 :: rest) = _
    unfold decodeVal
    rw [if_neg (by norm_num), if_neg (by norm_num), if_neg (by norm_num),
      if_neg (by norm_num), if_pos rfl]
  | .vbool false, f, rest, _, _ => by
    show decodeVal (f + 1) (194 :: rest) = _
    unfold decodeVal
    rw [if_neg (by norm_num), if_neg (by norm_num), if_neg (by norm_num),
      if_neg (by norm_num), if_neg (by norm_num), if_pos rfl]
  | .vbool true, f, rest, _, _ => by
    show decodeVal (f + 1) (195 :: rest) = _
    unfold decodeVal
    rw [if_neg (by norm_num), if_neg (by norm_num), if_neg (by norm_num),
      if_neg (by norm_num), if_neg (by norm_num), if_neg (by norm_num),
      if_pos rfl]
  | .vint n, f, rest, h, _ => by
    obtain ⟨hn1, hn2⟩ : -9007199254740992 < n ∧ n < 9007199254740992 := by
      simpa [valWF] using h
    exact decodeVal_encInt n f rest hn1 hn2
  | .vstr s, f, rest, h, _ =>
    decodeVal_encStr s f rest (by simpa [valWF] using h)
  | .vobj fs, f, rest, h, hd => by
    obtain ⟨hlen, hf⟩ : fs.length < 4294967296 ∧ fieldsWF fs = true := by
      simpa [valWF] using h
    have hd2 : depthF fs + 1 ≤ f := by simpa [depthV] using hd
    obtain ⟨g, rfl⟩ : ∃ g, f = g + 1 := ⟨f - 1, by omega⟩
    have hdg : depthF fs ≤ g := by omega
    show decodeVal (g + 1 + 1)
      ((encMapHeader fs.length ++ encFields fs) ++ rest) = _
    rw [List.append_assoc]
    unfold encMapHeader
    by_cases h16 : fs.length < 16
    · rw [if_pos h16]
      show decodeVal (g + 1 + 1)
        ((128 + fs.length) :: (encFields fs ++ rest)) = _
      unfold decodeVal
      rw [if_neg (by omega), if_pos (by omega)]
      have he : 128 + fs.length - 128 = fs.length := by omega
      rw [he, decodeFields_encFields fs g rest hf hdg]
      rfl
    · rw [if_neg h16]
      by_cases h65 : fs.length < 65536
      · rw [if_pos h65]
        show decodeVal (g + 1 + 1)
          (222 :: (natToBytesBE 2 fs.length ++ (encFields fs ++ rest))) = _
        unfold decodeVal
        rw [if_neg (by norm_num), if_neg (by norm_num), if_neg (by norm_num),
          if_neg (by norm_num), if_neg (by norm_num), if_neg (by norm_num),
          if_neg (by norm_num), if_neg (by norm_num), if_neg (by norm_num),
          if_neg (by norm_num), if_neg (by norm_num), if_neg (by norm_num),
          if_neg (by norm_num), if_neg (by norm_num), if_neg (by norm_num),
          if_neg (by norm_num), if_neg (by norm_num),
          if_pos rfl, readBytes_exact 2 _ _ (natToBytesBE_length 2 _)]
        show (decodeFields (g + 1) (beVal (natToBytesBE 2 fs.length))
          (encFields fs ++ rest)).map (fun q => (Val.vobj q.1, q.2)) = _
        rw [beVal_natToBytesBE 2 _ (by norm_num; omega),
          decodeFields_encFields fs g rest hf hdg]
        rfl
      · rw [if_neg h65]
        show decodeVal (g + 1 + 1)
          (223 :: (natToBytesBE 4 fs.length ++ (encFields fs ++ rest))) = _
        unfold decodeVal
        rw [if_neg (by norm_num), if_neg (by norm_num), if_neg (by norm_num),
          if_neg (by norm_num), if_neg (by norm_num), if_neg (by norm_num),
          if_neg (by norm_num), if_neg (by norm_num), if_neg (by norm_num),
          if_neg (by norm_num), if_neg (by norm_num), if_neg (by norm_num),
          if_neg (by norm_num), if_neg (by norm_num), if_neg (by norm_num),
          if_neg (by norm_num), if_neg (by norm_num), if_neg (by norm_num),
          if_pos rfl, readBytes_exact 4 _ _ (natToBytesBE_length 4 _)]
        show (decodeFields (g + 1) (beVal (natToBytesBE 4 fs.length))
          (encFields fs ++ rest)).map (fun q => (Val.vobj q.1, q.2)) = _
        rw [beVal_natToBytesBE 4 _ (by norm_num; omega),
          decodeFields_encFields fs g rest hf hdg]
        rfl

theorem decodeFields_encFields : ∀ (fs : List (String × Val)) (g : Nat)
    (rest : List Nat), fieldsWF fs = true → depthF fs ≤ g →
    decodeFields (g + 1) fs.length (encFields fs ++ rest) = some (fs, rest)
  | [], g, rest, _, _ => by
    show decodeFields (g + 1) 0 rest = _
    unfold decodeFields
    rfl
  | (k, v) :: t, g, rest, h, hd => by
    obtain ⟨⟨hk, hv⟩, ht⟩ :
        (strWF k = true ∧ valWF v = true) ∧ fieldsWF t = true := by
      simpa [fieldsWF, Bool.and_eq_true] using h
    have hdm : max (depthV v) (depthF t) ≤ g := by simpa [depthF] using hd
    have hdv : depthV v ≤ g := le_trans (le_max_left _ _) hdm
    have hdt : depthF t ≤ g := le_trans (le_max_right _ _) hdm
    have hassoc : ((encStr k ++ encVal v ++ encFields t) ++ rest) =
        encStr k ++ (encVal v ++ (encFields t ++ rest)) := by
      simp [List.append_assoc]
    show decodeFields (g + 1) (t.length + 1)
      ((encStr k ++ encVal v ++ encFields t) ++ rest) = _
    rw [hassoc]
    unfold decodeFields
    rw [decodeStr_encStr k _ hk]
    show (decodeVal (g + 1) (encVal v ++ (encFields t ++ rest))).bind _ = _
    rw [decodeVal_encVal v g _ hv hdv]
    show (decodeFields (g + 1) t.length (encFields t ++ rest)).map _ = _
    rw [decodeFields_encFields t g rest ht hdt]
    rfl

end

theorem b64idx_b64chr : ∀ n, n < 64 → b64idx (b64chr n) = some n := by decide

theorem b64chr_ne_pad : ∀ n, n < 64 → ¬b64chr n = '=' := by decide

theorem b64decode_b64encode : ∀ (bs : List Nat), (∀ b ∈ bs, b < 256) →
    b64decode (b64encode bs) = some bs
  | [], _ => rfl
  | b0 :: b1 :: b2 :: t, h => by
    have hb0 : b0 < 256 := h b0 (by simp)
    have hb1 : b1 < 256 := h b1 (by simp)
    have hb2 : b2 < 256 := h b2 (by simp)
    have ht : ∀ b ∈ t, b < 256 := fun b hb => h b (by simp [hb])
    have hc2 : ¬b64chr (b1 % 16 * 4 + b2 / 64) = '=' :=
      b64chr_ne_pad (b1 % 16 * 4 + b2 / 64) (by omega)
    have hc3 : ¬b64chr (b2 % 64) = '=' := b64chr_ne_pad (b2 % 64) (by omega)
    show b64decode (b64chr (b0 / 4) :: b64chr (b0 % 4 * 16 + b1 / 16) ::
      b64chr (b1 % 16 * 4 + b2 / 64) :: b64chr (b2 % 64) :: b64encode t) = _
    unfold b64decode
    rw [b64idx_b64chr (b0 / 4) (by omega),
      b64idx_b64chr (b0 % 4 * 16 + b1 / 16) (by omega)]
    simp only [Option.some_bind]
    rw [if_neg hc2, b64idx_b64chr (b1 % 16 * 4 + b2 / 64) (by omega)]
    simp only [Option.some_bind]
    rw [if_neg hc3, b64idx_b64chr (b2 % 64) (by omega)]
    simp only [Option.some_bind]
    rw [b64decode_b64encode t ht]
    simp only [Option.map_some']
    have e0 : b0 / 4 * 4 + (b0 % 4 * 16 + b1 / 16) / 16 = b0 := by omega
    have e1 : (b0 % 4 * 16 + b1 / 16) % 16 * 16 +
        (b1 % 16 * 4 + b2 / 64) / 4 = b1 := by omega
    have e2 : (b1 % 16 * 4 + b2 / 64) % 4 * 64 + b2 % 64 = b2 := by omega
    rw [e0, e1, e2]
  | [b0, b1], h => by
    have hb0 : b0 < 256 := h b0 (by simp)
    have hb1 : b1 < 256 := h b1 (by simp)
    have hc2 : ¬b64chr (b1 % 16 * 4) = '=' :=
      b64chr_ne_pad (b1 % 16 * 4) (by omega)
    show b64decode [b64chr (b0 / 4), b64chr (b0 % 4 * 16 + b1 / 16),
      b64chr (b1 % 16 * 4), '='] = _
    unfold b64decode
    rw [b64idx_b64chr (b0 / 4) (by omega),
      b64idx_b64chr (b0 % 4 * 16 + b1 / 16) (by omega)]
    simp only [Option.some_bind]
    rw [if_neg hc2, b64idx_b64chr (b1 % 16 * 4) (by omega)]
    simp only [Option.some_bind]
    rw [if_pos trivial, if_pos trivial]
    have e0 : b0 / 4 * 4 + (b0 % 4 * 16 + b1 / 16) / 16 = b0 := by omega
    have e1 : (b0 % 4 * 16 + b1 / 16) % 16 * 16 + b1 % 16 * 4 / 4 = b1 := by
      omega
    rw [e0, e1]
  | [b0], h => by
    have hb0 : b0 < 256 := h b0 (by simp)
    show b64decode [b64chr (b0 / 4), b64chr (b0 % 4 * 16), '=', '='] = _
    unfold b64decode
    rw [b64idx_b64chr (b0 / 4) (by omega), b64idx_b64chr (b0 % 4 * 16) (by omega)]
    simp only [Option.some_bind]
    rw [if_pos trivial, if_pos ⟨trivial, trivial⟩]
    have e0 : b0 / 4 * 4 + b0 % 4 * 16 / 16 = b0 := by omega
    rw [e0]

theorem valToDeltaEntries_toVal (d : EntityDelta) :
    valToDeltaEntries (d.map fun p => (p.1, deltaEntryToVal p.2)) = some d := by
  induction d with
  | nil => rfl
  | cons p t ih =>
    obtain ⟨k, ch⟩ := p
    cases ch with
    | none =>
      have step : valToDeltaEntries
          ((k, Val.vnull) :: (t.map fun p => (p.1, deltaEntryToVal p.2))) =
          (valToDeltaEntries (t.map fun p => (p.1, deltaEntryToVal p.2))).map
            (fun r => (k, none) :: r) := rfl
      show valToDeltaEntries
        ((k, Val.vnull) :: (t.map fun p => (p.1, deltaEntryToVal p.2))) = _
      rw [step, ih]
      rfl
    | some fs =>
      have step : valToDeltaEntries
          ((k, Val.vobj fs) :: (t.map fun p => (p.1, deltaEntryToVal p.2))) =
          (valToDeltaEntries (t.map fun p => (p.1, deltaEntryToVal p.2))).map
            (fun r => (k, some fs) :: r) := rfl
      show valToDeltaEntries
        ((k, Val.vobj fs) :: (t.map fun p => (p.1, deltaEntryToVal p.2))) = _
      rw [step, ih]
      rfl

theorem valToFullDelta_toVal (fd : FullDelta) :
    valToFullDelta (fullDeltaToVal fd) = some fd := by
  have h1 : alook [("roomId", Val.vstr fd.roomId),
      ("delta", Val.vobj (List.map (fun p => (p.1, deltaEntryToVal p.2)) fd.delta)),
      ("tick", Val.vint fd.tick), ("seq", Val.vint fd.seq),
      ("ts", Val.vint fd.ts), ("instanceId", Val.vstr fd.instanceId)]
      "roomId" = some (Val.vstr fd.roomId) := by
    rw [alook, if_pos rfl]
  have h2 : alook [("roomId", Val.vstr fd.roomId),
      ("delta", Val.vobj (List.map (fun p => (p.1, deltaEntryToVal p.2)) fd.delta)),
      ("tick", Val.vint fd.tick), ("seq", Val.vint fd.seq),
      ("ts", Val.vint fd.ts), ("instanceId", Val.vstr fd.instanceId)]
      "delta" = some (Val.vobj (List.map (fun p =>
        (p.1, deltaEntryToVal p.2)) fd.delta)) := by
    rw [alook, if_neg (by decide), alook, if_pos rfl]
  have h3 : alook [("roomId", Val.vstr fd.roomId),
      ("delta", Val.vobj (List.map (fun p => (p.1, deltaEntryToVal p.2)) fd.delta)),
      ("tick", Val.vint fd.tick), ("seq", Val.vint fd.seq),
      ("ts", Val.vint fd.ts), ("instanceId", Val.vstr fd.instanceId)]
      "tick" = some (Val.vint fd.tick) := by
    rw [alook, if_neg (by decide), alook, if_neg (by decide), alook, if_pos rfl]
  have h4 : alook [("roomId", Val.vstr fd.roomId),
      ("delta", Val.vobj (List.map (fun p => (p.1, deltaEntryToVal p.2)) fd.delta)),
      ("tick", Val.vint fd.tick), ("seq", Val.vint fd.seq),
      ("ts", Val.vint fd.ts), ("instanceId", Val.vstr fd.instanceId)]
      "seq" = some (Val.vint fd.seq) := by
    rw [alook, if_neg (by decide), alook, if_neg (by decide), alook,
      if_neg (by decide), alook, if_pos rfl]
  have h5 : alook [("roomId", Val.vstr fd.roomId),
      ("delta", Val.vobj (List.map (fun p => (p.1, deltaEntryToVal p.2)) fd.delta)),
      ("tick", Val.vint fd.tick), ("seq", Val.vint fd.seq),
      ("ts", Val.vint fd.ts), ("instanceId", Val.vstr fd.instanceId)]
      "ts" = some (Val.vint fd.ts) := by
    rw [alook, if_neg (by decide), alook, if_neg (by decide), alook,
      if_neg (by decide), alook, if_neg (by decide), alook, if_pos rfl]
  have h6 : alook [("roomId", Val.vstr fd.roomId),
      ("delta", Val.vobj (List.map (fun p => (p.1, deltaEntryToVal p.2)) fd.delta)),
      ("tick", Val.vint fd.tick), ("seq", Val.vint fd.seq),
      ("ts", Val.vint fd.ts), ("instanceId", Val.vstr fd.instanceId)]
      "instanceId" = some (Val.vstr fd.instanceId) := by
    rw [alook, if_neg (by decide), alook, if_neg (by decide), alook,
      if_neg (by decide), alook, if_neg (by decide), alook, if_neg (by decide),
      alook, if_pos rfl]
  unfold fullDeltaToVal entityDeltaToVal valToFullDelta
  simp only [h1, h2, h3, h4, h5, h6, valToDeltaEntries_toVal, Option.map_some']

/-- C7: decoding the base64-wrapped binary encoding of a FullDelta gives the
FullDelta back, for every FullDelta whose integers a JS number holds exactly
(|n| < 2^53, covering every Date.now() timestamp, written as float64 outside
the int32 range) and whose strings and maps fit the str32/map32 headers. -/
theorem encode_decode_roundtrip (fd : FullDelta)
    (h : valWF (fullDeltaToVal fd) = true) :
    decodeDeltaFromBase64 (encodeDeltaToBase64 fd) = some fd := by
  unfold encodeDeltaToBase64 decodeDeltaFromBase64
  have hdata : (String.mk (b64encode (encVal (fullDeltaToVal fd)))).data =
      b64encode (encVal (fullDeltaToVal fd)) := rfl
  rw [hdata, b64decode_b64encode _ (encVal_bytes_lt _)]
  show (decodeVal ((encVal (fullDeltaToVal fd)).length + 1)
    (encVal (fullDeltaToVal fd))).bind (fun p => valToFullDelta p.1) = some fd
  have hfull : decodeVal ((encVal (fullDeltaToVal fd)).length + 1)
      (encVal (fullDeltaToVal fd)) = some (fullDeltaToVal fd, []) := by
    have hmain := decodeVal_encVal (fullDeltaToVal fd)
      (encVal (fullDeltaToVal fd)).length [] h (depthV_le_encVal _)
    simpa using hmain
  rw [hfull]
  show valToFullDelta (fullDeltaToVal fd) = some fd
  exact valToFullDelta_toVal fd

/-- C7 witness: a concrete FullDelta with a changed entity (including a
non-ASCII string field), a removed entity, and a Date.now()-scale ts that
takes the float64 path round-trips through the base64 codec. -/
theorem encode_decode_roundtrip_witness :
    valWF (fullDeltaToVal ⟨"r", [("p", some [("x", Val.vint 1),
      ("é", Val.vstr "✓")]), ("q", none)], 2, 3, 1760000000000, "A"⟩) = true ∧
    decodeDeltaFromBase64 (encodeDeltaToBase64
        ⟨"r", [("p", some [("x", Val.vint 1), ("é", Val.vstr "✓")]),
          ("q", none)], 2, 3, 1760000000000, "A"⟩) =
      some ⟨"r", [("p", some [("x", Val.vint 1), ("é", Val.vstr "✓")]),
        ("q", none)], 2, 3, 1760000000000, "A"⟩ :=
  ⟨by decide,
    encode_decode_roundtrip
      ⟨"r", [("p", some [("x", Val.vint 1), ("é", Val.vstr "✓")]),
        ("q", none)], 2, 3, 1760000000000, "A"⟩
      (by decide)⟩

end Kasagi
